import Mathlib

/-!
Verification of the dominant-share allocator of this repository
(`master/dominant_share_allocator.cpp`, given as `src/unnamed/part_004`).

The allocator state (frameworks, slaves, cluster total, per-framework
allocated resources, per-slave allocatable resources, refusal filters,
whitelist) and every event handler are embedded as executable Lean
functions, translated from the C++ source.  Fatal `CHECK` assertions are
modelled by returning `Option.none`.  Hash maps are modelled as
association lists; hash-set iteration order becomes list order.

The resource algebra (`common/resources.*`), the `MIN_CPUS` / `MIN_MEM`
constants and the protobuf `Filters` default are not part of the given
sources; they are modelled from the specification and marked as such.
-/

namespace MesosDSA

/-- Modelled from the spec: a resource value is a variant — scalar
(rational, standing for the real number), ranges (set of integer
intervals) or set of strings ("set of strings").  `common/resources.*`
is not among the given sources. -/
inductive Value where
  | scalar : ℚ → Value
  | ranges : List (Nat × Nat) → Value
  | items : List String → Value
deriving DecidableEq, Repr

/-- Modelled from the spec: a resource vector is a finite map from
resource name to a typed value; represented as an association list. -/
abbrev Resources := List (String × Value)

/-- Do two values have the same variant kind (so that they combine)? -/
def Value.sameKind : Value → Value → Bool
  | .scalar _, .scalar _ => true
  | .ranges _, .ranges _ => true
  | .items _, .items _ => true
  | _, _ => false

/-- Modelled from the spec: componentwise combination used by `+`
(scalars add, interval sets and string sets unite). -/
def Value.addV : Value → Value → Value
  | .scalar x, .scalar y => .scalar (x + y)
  | .ranges x, .ranges y => .ranges (x ++ y)
  | .items x, .items y => .items (x ++ y)
  | _, v => v

/-- Modelled from the spec: componentwise subtraction used by `-`
(scalars subtract exactly; interval sets and string sets take
difference). -/
def Value.subV : Value → Value → Value
  | .scalar x, .scalar y => .scalar (x - y)
  | .ranges x, .ranges y => .ranges (x.diff y)
  | .items x, .items y => .items (x.diff y)
  | v, _ => v

/-- The value standing for "absent": subtracting `v` from an absent
component leaves `0 - v` for scalars and empty collections otherwise. -/
def Value.negV : Value → Value
  | .scalar x => .scalar (-x)
  | .ranges _ => .ranges []
  | .items _ => .items []

/-- Add one entry into a resource vector: combine with the first entry
of the same name and kind, else append. -/
def Resources.addEntry : Resources → (String × Value) → Resources
  | [], e => [e]
  | f :: rest, e =>
    if f.1 = e.1 ∧ f.2.sameKind e.2 then (f.1, f.2.addV e.2) :: rest
    else f :: Resources.addEntry rest e

/-- Subtract one entry from a resource vector: subtract from the first
entry of the same name and kind, else append its negation. -/
def Resources.subEntry : Resources → (String × Value) → Resources
  | [], e => [(e.1, e.2.negV)]
  | f :: rest, e =>
    if f.1 = e.1 ∧ f.2.sameKind e.2 then (f.1, f.2.subV e.2) :: rest
    else f :: Resources.subEntry rest e

/-- Modelled from the spec: componentwise `+` on resource vectors. -/
def Resources.add (a b : Resources) : Resources := b.foldl Resources.addEntry a

/-- Modelled from the spec: componentwise `-` on resource vectors. -/
def Resources.sub (a b : Resources) : Resources := b.foldl Resources.subEntry a

/-- `Resources::get(name, Value::Scalar())`: the scalar component of a
resource vector at a name, zero when absent. -/
def Resources.getScalar (rs : Resources) (n : String) : ℚ :=
  match rs.find? (fun e => e.1 = n ∧ e.2.sameKind (.scalar 0)) with
  | some (_, .scalar v) => v
  | _ => 0

/-- The total scalar amount carried at a name, summing every scalar
entry with that name (coincides with `getScalar` on canonical maps). -/
def scalarTotal (rs : Resources) (n : String) : ℚ :=
  (rs.filterMap (fun e =>
    match e with
    | (m, .scalar v) => if m = n then some v else none
    | _ => none)).sum

/-- Modelled from the spec: `allocatable()` keeps exactly the scalar
entries with positive value ("positive scalars above a small epsilon",
the epsilon taken as zero; non-scalar entries are not part of the
projection, per the glossary). -/
def Resources.allocatable (rs : Resources) : Resources :=
  rs.filter (fun e =>
    match e.2 with
    | .scalar v => 0 < v
    | _ => false)

/-- Modelled from the spec: a valid resource vector has non-negative
scalars ("scalar (non-negative real)"). -/
def Resources.valid (rs : Resources) : Bool :=
  rs.all (fun e =>
    match e.2 with
    | .scalar v => 0 ≤ v
    | _ => true)

/-- Modelled from the spec: componentwise `≤` — scalar `≤`, superset
relation for ranges and sets; an absent right component counts as
zero or empty. -/
def Value.leV : Value → Value → Bool
  | .scalar x, .scalar y => x ≤ y
  | .ranges x, .ranges y => x.all (· ∈ y)
  | .items x, .items y => x.all (· ∈ y)
  | _, _ => false

/-- Is a value at most an absent (zero / empty) component? -/
def Value.leZero : Value → Bool
  | .scalar x => x ≤ 0
  | .ranges x => x.isEmpty
  | .items x => x.isEmpty

/-- Modelled from the spec: `Resources::operator<=`, componentwise. -/
def Resources.le (a b : Resources) : Bool :=
  a.all (fun e =>
    match b.find? (fun e2 => e2.1 = e.1 ∧ e2.2.sameKind e.2) with
    | some e2 => e.2.leV e2.2
    | none => e.2.leZero)

/-- The scalar amount an individual entry contributes at a name. -/
def entryScalarAt (e : String × Value) (n : String) : ℚ :=
  match e with
  | (m, .scalar v) => if m = n then v else 0
  | _ => 0

/-! ### The allocator state

Translated from `DominantShareAllocator` (src/unnamed/part_004).  The
C++ hashmaps (`frameworks`, `slaves`, `allocated`, `allocatable`) and
the filter multimap become association lists; `FrameworkInfo` is never
read by the allocator and is dropped; `SlaveInfo` keeps the two fields
the allocator reads (hostname, resources). -/

structure SlaveInfo where
  hostname : String
  resources : Resources
deriving DecidableEq, Repr

/-- A `RefusedFilter`: target slave, refused resources, absolute expiry
time (`Timeout`; `remaining() > 0` becomes `now < expiry`). -/
structure FilterRec where
  slaveId : String
  resources : Resources
  expiry : ℚ
deriving DecidableEq, Repr

/-- The protobuf `Filters` message. -/
structure FiltersMsg where
  refuse_seconds : ℚ
deriving DecidableEq, Repr

/-- `ResourceHints` as used by the allocator: expected and minimum
resource vectors. -/
structure ResourceHints where
  expectedResources : Resources
  minResources : Resources
deriving DecidableEq, Repr

abbrev ResMap := List (String × Resources)

structure AllocState where
  frameworks : List String
  slaves : List (String × SlaveInfo)
  resources : Resources
  allocated : ResMap
  allocatable : ResMap
  filters : List (String × FilterRec)
  whitelist : Option (List String)
deriving DecidableEq, Repr

/-- Read a hashmap entry; absent keys read as the empty vector (the
C++ `operator[]` default-constructs). -/
def lookupRes (m : ResMap) (k : String) : Resources :=
  match m.find? (fun e => e.1 = k) with
  | some e => e.2
  | none => []

def containsKey (m : ResMap) (k : String) : Bool :=
  m.any (fun e => e.1 = k)

/-- `m[k] += v` on a hashmap: default-construct when absent. -/
def mapAddAt : ResMap → String → Resources → ResMap
  | [], k, v => [(k, Resources.add [] v)]
  | e :: rest, k, v =>
      if e.1 = k then (e.1, e.2.add v) :: rest else e :: mapAddAt rest k v

/-- `m[k] -= v` on a hashmap: default-construct when absent. -/
def mapSubAt : ResMap → String → Resources → ResMap
  | [], k, v => [(k, Resources.sub [] v)]
  | e :: rest, k, v =>
      if e.1 = k then (e.1, e.2.sub v) :: rest else e :: mapSubAt rest k v

/-- `m[k] = v` on a hashmap. -/
def mapPut : ResMap → String → Resources → ResMap
  | [], k, v => [(k, v)]
  | e :: rest, k, v =>
      if e.1 = k then (k, v) :: rest else e :: mapPut rest k v

def eraseKey (m : ResMap) (k : String) : ResMap :=
  m.filter (fun e => e.1 ≠ k)

/-- Sum of a scalar component over all values of a hashmap. -/
def sumScalar (m : ResMap) (n : String) : ℚ :=
  (m.map (fun e => scalarTotal e.2 n)).sum

/-- Modelled from the spec: `min_cpus = 0.01` (the master constants
header is not among the given sources). -/
def MIN_CPUS : ℚ := 1 / 100

/-- Modelled from the spec: `min_mem_mib = 32.0`. -/
def MIN_MEM : ℚ := 32

/-- Modelled from the spec: `default_refuse_seconds = 5.0` (the
protobuf default of `Filters.refuse_seconds`). -/
def DEFAULT_REFUSE_SECONDS : ℚ := 5

/-! ### The dominant-share comparator (`DominantShareComparator`) -/

/-- One loop iteration of `DominantShareComparator::operator()`: fold a
total-resources entry into the running pair of shares. -/
def dsStep (alloc1 alloc2 : Resources) (p : ℚ × ℚ) (e : String × Value) : ℚ × ℚ :=
  match e.2 with
  | .scalar total =>
      if 0 < total then
        (max p.1 (Resources.getScalar alloc1 e.1 / total),
         max p.2 (Resources.getScalar alloc2 e.1 / total))
      else p
  | _ => p

def dsShares (total alloc1 alloc2 : Resources) : ℚ × ℚ :=
  total.foldl (dsStep alloc1 alloc2) (0, 0)

/-- `DominantShareComparator::operator()(f1, f2)`. -/
def dsComp (total : Resources) (allocM : ResMap) (f1 f2 : String) : Bool :=
  let s := dsShares total (lookupRes allocM f1) (lookupRes allocM f2)
  if s.1 = s.2 then decide (f1 < f2) else decide (s.1 < s.2)

/-- The dominant share of a single allocation vector, folding over the
total exactly as the comparator's loop does for one framework. -/
def shareOf (total alloc : Resources) : ℚ :=
  total.foldl (fun s e =>
    match e.2 with
    | .scalar t => if 0 < t then max s (Resources.getScalar alloc e.1 / t) else s
    | _ => s) 0

/-- The scalar resource names of a vector, in order. -/
def scalarNames (total : Resources) : List String :=
  total.filterMap (fun e =>
    match e.2 with
    | .scalar _ => some e.1
    | _ => none)

/-- The dominant share as claim C2 words it: the maximum (zero when
there is nothing to take the maximum over) over scalar resource names
`r` with positive cluster total of `allocated[f].scalar(r) / T.scalar(r)`;
a framework absent from the allocated map reads as the empty vector. -/
def specShare (total : Resources) (allocM : ResMap) (f : String) : ℚ :=
  ((scalarNames total).filterMap (fun n =>
    let t := Resources.getScalar total n
    if 0 < t then some (Resources.getScalar (lookupRes allocM f) n / t) else none)).foldl
    max 0

/-- The ordering `std::sort` is given: `f1` may stay before `f2` iff the
comparator does not strictly order `f2` before `f1`. -/
abbrev dsLe (total : Resources) (allocM : ResMap) (f1 f2 : String) : Prop :=
  dsComp total allocM f2 f1 = false

instance (total : Resources) (allocM : ResMap) : DecidableRel (dsLe total allocM) :=
  fun _ _ => inferInstanceAs (Decidable (_ = false))

/-! ### Filters and the allocation pass -/

/-- `RefusedFilter::filter(slaveId, resources)`. -/
def filterMatches (fr : FilterRec) (sid : String) (o : Resources) (now : ℚ) : Bool :=
  decide (sid = fr.slaveId) && Resources.le o fr.resources && decide (now < fr.expiry)

/-- Does some filter of the list match the slave and offered resources? -/
def matchesAny (flt : List FilterRec) (sid : String) (o : Resources) (now : ℚ) : Bool :=
  flt.any (fun fr => filterMatches fr sid o now)

/-- The filters attached to one framework. -/
def filtersOf (s : AllocState) (f : String) : List FilterRec :=
  (s.filters.filter (fun e => e.1 = f)).map (fun e => e.2)

/-- `DominantShareAllocator::isWhitelisted` (its `CHECK` that the slave
is registered is dropped: an unknown slave reads hostname `""`). -/
def isWhitelisted (s : AllocState) (sid : String) : Bool :=
  match s.whitelist with
  | none => true
  | some wl =>
      wl.contains
        (match s.slaves.find? (fun e => e.1 = sid) with
         | some e => e.2.hostname
         | none => "")

/-- The `available` map built at the head of `allocate(slaveIds)`:
considered slaves that are whitelisted and whose allocatable free
resources pass the min-viable gate (`cpus >= MIN_CPUS && mem > MIN_MEM`
in the source). -/
def availableMap (s : AllocState) (slaveIds : List String) : ResMap :=
  s.allocatable.filterMap (fun e =>
    if slaveIds.contains e.1 && isWhitelisted s e.1 then
      let r := Resources.allocatable e.2
      if decide (MIN_CPUS ≤ Resources.getScalar r "cpus") &&
          decide (MIN_MEM < Resources.getScalar r "mem") then
        some (e.1, r)
      else none
    else none)

abbrev Offers := List (String × List (String × ResourceHints))

/-- The running state of one allocation pass. -/
structure PassSt where
  avail : ResMap
  allocated : ResMap
  allocatable : ResMap
  offers : Offers
deriving DecidableEq, Repr

/-- The body of the inner loop of `allocate(slaveIds)` for one
available slave: skip it when filtered, otherwise record the offer and
update the ledger. -/
def grantOne (f : String) (flt : List FilterRec) (now : ℚ)
    (acc : List (String × ResourceHints) × ResMap × ResMap) (e : String × Resources) :
    List (String × ResourceHints) × ResMap × ResMap :=
  if matchesAny flt e.1 e.2 now then acc
  else (acc.1 ++ [(e.1, ⟨e.2, []⟩)], mapAddAt acc.2.1 f e.2, mapSubAt acc.2.2 e.1 e.2)

/-- One framework's turn in `allocate(slaveIds)`: build its offerable
map over the still-available slaves, then erase offered slaves from
`available` and dispatch a single offer when non-empty. -/
def passStep (s : AllocState) (now : ℚ) (st : PassSt) (f : String) : PassSt :=
  let r := st.avail.foldl (grantOne f (filtersOf s f) now) ([], st.allocated, st.allocatable)
  if r.1.isEmpty then { st with allocated := r.2.1, allocatable := r.2.2 }
  else
    { avail := st.avail.filter (fun e => !(r.1.any (fun o => o.1 = e.1))),
      allocated := r.2.1,
      allocatable := r.2.2,
      offers := st.offers ++ [(f, r.1)] }

/-- The frameworks in the order `std::sort` with the comparator
produces (the comparator is a strict total order on distinct ids, so
the sorted sequence is the unique one). -/
def sortedFrameworks (s : AllocState) : List String :=
  s.frameworks.insertionSort (dsLe s.resources s.allocated)

/-- `DominantShareAllocator::allocate(const hashset<SlaveID>&)`. -/
def allocatePass (s : AllocState) (slaveIds : List String) (now : ℚ) :
    AllocState × Offers :=
  if s.frameworks.isEmpty then (s, [])
  else
    let avail := availableMap s slaveIds
    if avail.isEmpty then (s, [])
    else
      let st := (sortedFrameworks s).foldl (passStep s now)
        ⟨avail, s.allocated, s.allocatable, []⟩
      ({ s with allocated := st.allocated, allocatable := st.allocatable }, st.offers)

/-- A recursive specification of the offers produced by the pass loop,
used to reason about the fold. -/
def offersSpec (s : AllocState) (now : ℚ) : List String → ResMap → Offers
  | [], _ => []
  | f :: L, avail =>
      let granted := avail.filter (fun e => !matchesAny (filtersOf s f) e.1 e.2 now)
      let rest := avail.filter (fun e => matchesAny (filtersOf s f) e.1 e.2 now)
      if granted.isEmpty then offersSpec s now L avail
      else (f, granted.map (fun e => (e.1, ⟨e.2, []⟩))) :: offersSpec s now L rest

/-- The entries of an available map one framework is granted: the
still-available agents none of its filters match. -/
def grantedOf (s : AllocState) (now : ℚ) (f : String) (avail : ResMap) : ResMap :=
  avail.filter (fun e => !matchesAny (filtersOf s f) e.1 e.2 now)

/-- Total scalar amount at name `n` granted to framework `f` across an
offers list. -/
def offeredToSum (offers : Offers) (f : String) (n : String) : ℚ :=
  ((offers.filter (fun o => o.1 = f)).map
    (fun o => (o.2.map (fun p => scalarTotal p.2.expectedResources n)).sum)).sum

/-- Total scalar amount at name `n` taken from agent `x` across an
offers list. -/
def offeredAtSum (offers : Offers) (x : String) (n : String) : ℚ :=
  (offers.map
    (fun o => ((o.2.filter (fun p => p.1 = x)).map
      (fun p => scalarTotal p.2.expectedResources n)).sum)).sum

/-! ### The event surface -/

def slaveKeys (s : AllocState) : List String := s.slaves.map (fun e => e.1)

/-- `allocate()`: a global pass over every slave. -/
def allocateAll (s : AllocState) (now : ℚ) : AllocState × Offers :=
  allocatePass s (slaveKeys s) now

def initState : AllocState := ⟨[], [], [], [], [], [], none⟩

/-- `frameworkAdded`; `none` models a fatal `CHECK` failure. -/
def frameworkAdded (s : AllocState) (fid : String) (used : Resources) (now : ℚ) :
    Option (AllocState × Offers) :=
  if s.frameworks.contains fid then none
  else if containsKey s.allocated fid then none
  else
    some (allocateAll
      { s with frameworks := s.frameworks ++ [fid],
               allocated := s.allocated ++ [(fid, used)] } now)

/-- `frameworkRemoved`: unregister, erase the allocated entry, detach
every filter of the framework.  No `CHECK` beside `initialized`. -/
def frameworkRemoved (s : AllocState) (fid : String) : AllocState :=
  { s with frameworks := s.frameworks.filter (fun x => x ≠ fid),
           allocated := eraseKey s.allocated fid,
           filters := s.filters.filter (fun e => e.1 ≠ fid) }

def frameworkActivated (s : AllocState) (fid : String) (now : ℚ) :
    Option (AllocState × Offers) :=
  if s.frameworks.contains fid then none
  else some (allocateAll { s with frameworks := s.frameworks ++ [fid] } now)

/-- `frameworkDeactivated`: unregister and detach the framework's
filters; the allocated entry is deliberately kept. -/
def frameworkDeactivated (s : AllocState) (fid : String) : AllocState :=
  { s with frameworks := s.frameworks.filter (fun x => x ≠ fid),
           filters := s.filters.filter (fun e => e.1 ≠ fid) }

/-- `slaveAdded`: register the slave, add its capacity to the cluster
total, credit `used` to registered frameworks, and mark the not-used
remainder allocatable; then a targeted pass. -/
def slaveAdded (s : AllocState) (sid : String) (info : SlaveInfo)
    (used : ResMap) (now : ℚ) : Option (AllocState × Offers) :=
  if (s.slaves.map (fun e => e.1)).contains sid then none
  else
    let allocated' := used.foldl
      (fun m e => if s.frameworks.contains e.1 then mapAddAt m e.1 e.2 else m)
      s.allocated
    let unused := used.foldl (fun r e => Resources.sub r e.2) info.resources
    some (allocatePass
      { s with slaves := s.slaves ++ [(sid, info)],
               resources := Resources.add s.resources info.resources,
               allocated := allocated',
               allocatable := mapPut s.allocatable sid unused }
      [sid] now)

def slaveRemoved (s : AllocState) (sid : String) : Option AllocState :=
  match s.slaves.find? (fun e => e.1 = sid) with
  | none => none
  | some e =>
      some { s with resources := Resources.sub s.resources e.2.resources,
                    slaves := s.slaves.filter (fun x => x.1 ≠ sid),
                    allocatable := eraseKey s.allocatable sid }

def updateWhitelist (s : AllocState) (wl : Option (List String)) : AllocState :=
  { s with whitelist := wl }

/-- The refuse duration used by `resourcesUnused`: the explicit value,
or the protobuf default when no `Filters` message is given. -/
def effectiveRefuse (fspec : Option FiltersMsg) : ℚ :=
  match fspec with
  | some f => f.refuse_seconds
  | none => DEFAULT_REFUSE_SECONDS

/-- `resourcesUnused`: a no-op when nothing of the vector is
allocatable; otherwise two fatal `CHECK`s (framework and slave must be
in the ledger), the ledger update, and a filter when the refuse
duration is non-zero (`timeout != 0.0` in the source). -/
def resourcesUnused (s : AllocState) (fid sid : String) (o : Resources)
    (fspec : Option FiltersMsg) (now : ℚ) : Option AllocState :=
  if (Resources.allocatable o).isEmpty then some s
  else if !containsKey s.allocated fid then none
  else if !containsKey s.allocatable sid then none
  else if effectiveRefuse fspec ≠ 0 then
    some { s with allocated := mapSubAt s.allocated fid o,
                  allocatable := mapAddAt s.allocatable sid o,
                  filters := s.filters ++ [(fid, ⟨sid, o, now + effectiveRefuse fspec⟩)] }
  else
    some { s with allocated := mapSubAt s.allocated fid o,
                  allocatable := mapAddAt s.allocatable sid o }

/-- `resourcesRecovered`: a no-op when nothing of the vector is
allocatable; otherwise each side of the ledger is updated only when
that party is still registered.  No fatal `CHECK`s. -/
def resourcesRecovered (s : AllocState) (fid sid : String) (o : Resources) :
    AllocState :=
  if (Resources.allocatable o).isEmpty then s
  else
    let s1 :=
      if containsKey s.allocated fid then
        { s with allocated := mapSubAt s.allocated fid o }
      else s
    if containsKey s1.allocatable sid then
      { s1 with allocatable := mapAddAt s1.allocatable sid o }
    else s1

def offersRevived (s : AllocState) (fid : String) (now : ℚ) : AllocState × Offers :=
  allocateAll { s with filters := s.filters.filter (fun e => e.1 ≠ fid) } now

def batchTick (s : AllocState) (now : ℚ) : AllocState × Offers := allocateAll s now

/-! ### Spec-side definitions used to state the claims -/

/-- Claim C4's eligibility predicate, exactly as the claim words it: a
considered agent is available iff the whitelist admits it and its
allocatable free resources have at least `MIN_CPUS` cpus and at least
`MIN_MEM` mem. -/
def claimC4eligible (s : AllocState) (slaveIds : List String) (a : String) : Bool :=
  slaveIds.contains a && containsKey s.allocatable a && isWhitelisted s a &&
    (let r := Resources.allocatable (lookupRes s.allocatable a)
     decide (MIN_CPUS ≤ Resources.getScalar r "cpus") &&
       decide (MIN_MEM ≤ Resources.getScalar r "mem"))

/-- Per-agent advertised capacity summed over the cluster, at one
scalar name. -/
def advertisedSum (s : AllocState) (n : String) : ℚ :=
  (s.slaves.map (fun e => scalarTotal e.2.resources n)).sum

/-- The conservation balance of claim C1 at one scalar resource name:
allocated plus free equals advertised. -/
abbrev consFor (s : AllocState) (n : String) : Prop :=
  sumScalar s.allocated n + sumScalar s.allocatable n = advertisedSum s n

section ResourcesLemmas

theorem scalarTotal_nil (n : String) : scalarTotal [] n = 0 := rfl

theorem scalarTotal_cons (e : String × Value) (rs : Resources) (n : String) :
    scalarTotal (e :: rs) n = entryScalarAt e n + scalarTotal rs n := by
  rcases e with ⟨m, v⟩
  cases v with
  | scalar v =>
      by_cases h : m = n <;> simp [scalarTotal, entryScalarAt, List.filterMap_cons, h]
  | ranges r => simp [scalarTotal, entryScalarAt, List.filterMap_cons]
  | items s => simp [scalarTotal, entryScalarAt, List.filterMap_cons]

theorem entryScalarAt_addV (m : String) (fv v : Value) (n : String)
    (h : fv.sameKind v = true) :
    entryScalarAt (m, fv.addV v) n = entryScalarAt (m, fv) n + entryScalarAt (m, v) n := by
  cases fv <;> cases v <;> simp [Value.sameKind] at h ⊢ <;>
    simp [Value.addV, entryScalarAt]
  by_cases hn : m = n <;> simp [hn]

theorem entryScalarAt_subV (m : String) (fv v : Value) (n : String)
    (h : fv.sameKind v = true) :
    entryScalarAt (m, fv.subV v) n = entryScalarAt (m, fv) n - entryScalarAt (m, v) n := by
  cases fv <;> cases v <;> simp [Value.sameKind] at h ⊢ <;>
    simp [Value.subV, entryScalarAt]
  by_cases hn : m = n <;> simp [hn]

theorem entryScalarAt_negV (m : String) (v : Value) (n : String) :
    entryScalarAt (m, v.negV) n = -entryScalarAt (m, v) n := by
  cases v <;> simp [Value.negV, entryScalarAt]
  by_cases hn : m = n <;> simp [hn]

theorem scalarTotal_addEntry (rs : Resources) (e : String × Value) (n : String) :
    scalarTotal (Resources.addEntry rs e) n = scalarTotal rs n + entryScalarAt e n := by
  induction rs with
  | nil =>
      rw [Resources.addEntry, scalarTotal_cons, scalarTotal_nil]
      ring
  | cons f rest ih =>
      rcases e with ⟨m, v⟩
      rcases f with ⟨fm, fv⟩
      rw [Resources.addEntry]
      by_cases h : fm = m ∧ fv.sameKind v = true
      · rcases h with ⟨h1, h2⟩
        subst h1
        rw [if_pos ⟨rfl, h2⟩, scalarTotal_cons, scalarTotal_cons,
          entryScalarAt_addV fm fv v n h2]
        ring
      · rw [if_neg (by simpa using h), scalarTotal_cons, scalarTotal_cons, ih]
        ring

theorem scalarTotal_subEntry (rs : Resources) (e : String × Value) (n : String) :
    scalarTotal (Resources.subEntry rs e) n = scalarTotal rs n - entryScalarAt e n := by
  induction rs with
  | nil =>
      rw [Resources.subEntry, scalarTotal_cons, scalarTotal_nil,
        entryScalarAt_negV]
      ring
  | cons f rest ih =>
      rcases e with ⟨m, v⟩
      rcases f with ⟨fm, fv⟩
      rw [Resources.subEntry]
      by_cases h : fm = m ∧ fv.sameKind v = true
      · rcases h with ⟨h1, h2⟩
        subst h1
        rw [if_pos ⟨rfl, h2⟩, scalarTotal_cons, scalarTotal_cons,
          entryScalarAt_subV fm fv v n h2]
        ring
      · rw [if_neg (by simpa using h), scalarTotal_cons, scalarTotal_cons, ih]
        ring

theorem scalarTotal_add (a b : Resources) (n : String) :
    scalarTotal (Resources.add a b) n = scalarTotal a n + scalarTotal b n := by
  induction b generalizing a with
  | nil => simp [Resources.add, scalarTotal_nil]
  | cons e rest ih =>
      rw [Resources.add, List.foldl_cons]
      have h2 := ih (Resources.addEntry a e)
      rw [Resources.add] at h2
      rw [h2, scalarTotal_addEntry, scalarTotal_cons]
      ring

theorem scalarTotal_sub (a b : Resources) (n : String) :
    scalarTotal (Resources.sub a b) n = scalarTotal a n - scalarTotal b n := by
  induction b generalizing a with
  | nil => simp [Resources.sub, scalarTotal_nil]
  | cons e rest ih =>
      rw [Resources.sub, List.foldl_cons]
      have h2 := ih (Resources.subEntry a e)
      rw [Resources.sub] at h2
      rw [h2, scalarTotal_subEntry, scalarTotal_cons]
      ring

/-- A valid vector with empty allocatable projection carries zero total
scalar at every name. -/
theorem scalarTotal_eq_zero_of_valid_allocatable_nil
    (rs : Resources) (hv : Resources.valid rs = true)
    (h : Resources.allocatable rs = []) (n : String) :
    scalarTotal rs n = 0 := by
  induction rs with
  | nil => rfl
  | cons e rest ih =>
      rcases e with ⟨m, v⟩
      rw [Resources.valid, List.all_cons, Bool.and_eq_true] at hv
      rw [Resources.allocatable, List.filter_cons] at h
      cases v with
      | scalar v =>
          have hle : 0 ≤ v := by simpa using hv.1
          by_cases hpos : 0 < v
          · rw [if_pos (by simpa using hpos)] at h
            exact absurd h (List.cons_ne_nil _ _)
          · have hz : v = 0 := le_antisymm (not_lt.mp hpos) hle
            rw [if_neg (by simpa using hpos)] at h
            rw [scalarTotal_cons, ih hv.2 h]
            subst hz
            simp [entryScalarAt]
      | ranges r =>
          rw [if_neg (by simp)] at h
          rw [scalarTotal_cons, ih hv.2 h]
          simp [entryScalarAt]
      | items s =>
          rw [if_neg (by simp)] at h
          rw [scalarTotal_cons, ih hv.2 h]
          simp [entryScalarAt]

end ResourcesLemmas

section MapLemmas

theorem lookupRes_cons (e : String × Resources) (m : ResMap) (k : String) :
    lookupRes (e :: m) k = if e.1 = k then e.2 else lookupRes m k := by
  by_cases h : e.1 = k <;> simp [lookupRes, List.find?_cons, h]

theorem lookupRes_mapAddAt_self (m : ResMap) (k : String) (v : Resources) (n : String) :
    scalarTotal (lookupRes (mapAddAt m k v) k) n =
      scalarTotal (lookupRes m k) n + scalarTotal v n := by
  induction m with
  | nil =>
      simp [mapAddAt, lookupRes_cons, lookupRes, scalarTotal_add, scalarTotal_nil]
  | cons e rest ih =>
      by_cases h : e.1 = k
      · rw [mapAddAt, if_pos h, lookupRes_cons, lookupRes_cons, if_pos h, if_pos h,
          scalarTotal_add]
      · rw [mapAddAt, if_neg h, lookupRes_cons, lookupRes_cons, if_neg h, if_neg h, ih]

theorem lookupRes_mapAddAt_ne (m : ResMap) (k : String) (v : Resources) (k' : String)
    (h : k' ≠ k) : lookupRes (mapAddAt m k v) k' = lookupRes m k' := by
  induction m with
  | nil =>
      rw [mapAddAt, lookupRes_cons, if_neg (fun hh => h hh.symm)]
  | cons e rest ih =>
      by_cases he : e.1 = k
      · rw [mapAddAt, if_pos he, lookupRes_cons, lookupRes_cons]
        have hne : ¬ e.1 = k' := by rw [he]; exact fun hh => h hh.symm
        rw [if_neg hne, if_neg hne]
      · rw [mapAddAt, if_neg he, lookupRes_cons, lookupRes_cons, ih]

theorem lookupRes_mapSubAt_self (m : ResMap) (k : String) (v : Resources) (n : String) :
    scalarTotal (lookupRes (mapSubAt m k v) k) n =
      scalarTotal (lookupRes m k) n - scalarTotal v n := by
  induction m with
  | nil =>
      simp [mapSubAt, lookupRes_cons, lookupRes, scalarTotal_sub, scalarTotal_nil]
  | cons e rest ih =>
      by_cases h : e.1 = k
      · rw [mapSubAt, if_pos h, lookupRes_cons, lookupRes_cons, if_pos h, if_pos h,
          scalarTotal_sub]
      · rw [mapSubAt, if_neg h, lookupRes_cons, lookupRes_cons, if_neg h, if_neg h, ih]

theorem lookupRes_mapSubAt_ne (m : ResMap) (k : String) (v : Resources) (k' : String)
    (h : k' ≠ k) : lookupRes (mapSubAt m k v) k' = lookupRes m k' := by
  induction m with
  | nil =>
      rw [mapSubAt, lookupRes_cons, if_neg (fun hh => h hh.symm)]
  | cons e rest ih =>
      by_cases he : e.1 = k
      · rw [mapSubAt, if_pos he, lookupRes_cons, lookupRes_cons]
        have hne : ¬ e.1 = k' := by rw [he]; exact fun hh => h hh.symm
        rw [if_neg hne, if_neg hne]
      · rw [mapSubAt, if_neg he, lookupRes_cons, lookupRes_cons, ih]

theorem sumScalar_nil (n : String) : sumScalar [] n = 0 := rfl

theorem sumScalar_cons (e : String × Resources) (m : ResMap) (n : String) :
    sumScalar (e :: m) n = scalarTotal e.2 n + sumScalar m n := by
  simp [sumScalar]

theorem sumScalar_mapAddAt (m : ResMap) (k : String) (v : Resources) (n : String) :
    sumScalar (mapAddAt m k v) n = sumScalar m n + scalarTotal v n := by
  induction m with
  | nil => simp [mapAddAt, sumScalar_cons, sumScalar_nil, scalarTotal_add, scalarTotal_nil]
  | cons e rest ih =>
      by_cases h : e.1 = k
      · rw [mapAddAt, if_pos h, sumScalar_cons, sumScalar_cons, scalarTotal_add]
        ring
      · rw [mapAddAt, if_neg h, sumScalar_cons, sumScalar_cons, ih]
        ring

theorem sumScalar_mapSubAt (m : ResMap) (k : String) (v : Resources) (n : String) :
    sumScalar (mapSubAt m k v) n = sumScalar m n - scalarTotal v n := by
  induction m with
  | nil => simp [mapSubAt, sumScalar_cons, sumScalar_nil, scalarTotal_sub, scalarTotal_nil]
  | cons e rest ih =>
      by_cases h : e.1 = k
      · rw [mapSubAt, if_pos h, sumScalar_cons, sumScalar_cons, scalarTotal_sub]
        ring
      · rw [mapSubAt, if_neg h, sumScalar_cons, sumScalar_cons, ih]
        ring

theorem containsKey_eraseKey_self (m : ResMap) (k : String) :
    containsKey (eraseKey m k) k = false := by
  simp only [containsKey, eraseKey]
  rw [Bool.eq_false_iff]
  intro hany
  rw [List.any_eq_true] at hany
  obtain ⟨x, hx, hpred⟩ := hany
  rw [List.mem_filter] at hx
  have h1 := hx.2
  simp at h1 hpred
  exact h1 hpred

end MapLemmas

/-! ### Claim C9 -/

/-- Claim C9: when the refused or recovered vector has an empty
allocatable projection (no positive scalar), `resourcesUnused` and
`resourcesRecovered` are complete no-ops — allocated, free and the
filter registry are all unchanged, even when the refuse duration is
positive. -/
theorem c9_empty_allocatable_is_noop (s : AllocState) (fid sid : String)
    (o : Resources) (fspec : Option FiltersMsg) (now : ℚ)
    (h : Resources.allocatable o = []) :
    resourcesUnused s fid sid o fspec now = some s ∧
      resourcesRecovered s fid sid o = s := by
  constructor
  · rw [resourcesUnused, if_pos (by simp [h])]
  · rw [resourcesRecovered, if_pos (by simp [h])]

/-- Witness for C9: a vector holding only a zero cpus scalar is
dropped whole by the allocatable projection, so the call leaves the
state untouched although `refuse_seconds = 10 > 0`. -/
theorem c9_empty_allocatable_is_noop_witness :
    resourcesUnused
        ⟨["F"], [("a1", ⟨"h", [("cpus", Value.scalar 8)]⟩)],
         [("cpus", Value.scalar 8)], [("F", [("cpus", Value.scalar 1)])],
         [("a1", [("cpus", Value.scalar 7)])], [], none⟩
        "F" "a1" [("cpus", Value.scalar 0)] (some ⟨10⟩) 0 =
      some ⟨["F"], [("a1", ⟨"h", [("cpus", Value.scalar 8)]⟩)],
        [("cpus", Value.scalar 8)], [("F", [("cpus", Value.scalar 1)])],
        [("a1", [("cpus", Value.scalar 7)])], [], none⟩ :=
  (c9_empty_allocatable_is_noop _ "F" "a1" [("cpus", Value.scalar 0)]
    (some ⟨10⟩) 0 (by decide)).1

/-! ### Claim C10 -/

/-- Claim C10: `frameworkDeactivated(f)` detaches every filter of `f`
(afterwards no filter of `f` matches any slave and resource vector)
while leaving `allocated[f]` — indeed the whole allocated map —
unchanged. -/
theorem c10_deactivated_detaches_filters (s : AllocState) (f : String) :
    (frameworkDeactivated s f).allocated = s.allocated ∧
      (frameworkDeactivated s f).filters = s.filters.filter (fun e => e.1 ≠ f) ∧
      filtersOf (frameworkDeactivated s f) f = [] ∧
      ∀ a o now, matchesAny (filtersOf (frameworkDeactivated s f) f) a o now = false := by
  refine ⟨rfl, rfl, ?_, ?_⟩
  · rw [filtersOf]
    have h : (frameworkDeactivated s f).filters.filter (fun e => e.1 = f) = [] := by
      rw [frameworkDeactivated]
      simp only [List.filter_filter]
      apply List.filter_eq_nil_iff.mpr
      intro e _
      by_cases he : e.1 = f <;> simp [he]
    rw [h, List.map_nil]
  · intro a o now
    have h : (frameworkDeactivated s f).filters.filter (fun e => e.1 = f) = [] := by
      rw [frameworkDeactivated]
      simp only [List.filter_filter]
      apply List.filter_eq_nil_iff.mpr
      intro e _
      by_cases he : e.1 = f <;> simp [he]
    rw [filtersOf, h, List.map_nil]
    rfl

/-! ### Claims C6 and C8 -/

/-- After dropping every entry keyed `f`, no entry keyed `f` remains. -/
theorem filter_ne_filter_eq_nil (l : List (String × FilterRec)) (f : String) :
    (l.filter (fun e => e.1 ≠ f)).filter (fun e => e.1 = f) = [] := by
  simp only [List.filter_filter]
  apply List.filter_eq_nil_iff.mpr
  intro e _
  by_cases he : e.1 = f <;> simp [he]

/-- Claim C6: `frameworkRemoved(f)` leaves every agent's free capacity
(and the advertised capacities) unchanged and detaches all of `f`'s
filters; a subsequent `resourcesRecovered(f, a, O)` is a total
function (it never fails), skips the framework-side update (since `f`
is gone from the allocated map), and credits `free(a)` with `O`
whenever the agent is still registered; when the agent is gone too the
free map is untouched. -/
theorem c6_removed_framework_then_recovered (s : AllocState) (f a : String)
    (o : Resources) (hv : Resources.valid o = true) :
    (frameworkRemoved s f).allocatable = s.allocatable ∧
    (frameworkRemoved s f).slaves = s.slaves ∧
    filtersOf (frameworkRemoved s f) f = [] ∧
    containsKey (frameworkRemoved s f).allocated f = false ∧
    (resourcesRecovered (frameworkRemoved s f) f a o).allocated =
      (frameworkRemoved s f).allocated ∧
    (containsKey s.allocatable a = true →
      ∀ n, scalarTotal
          (lookupRes (resourcesRecovered (frameworkRemoved s f) f a o).allocatable a) n =
        scalarTotal (lookupRes s.allocatable a) n + scalarTotal o n) ∧
    (containsKey s.allocatable a = false →
      (resourcesRecovered (frameworkRemoved s f) f a o).allocatable = s.allocatable) := by
  have hcf : containsKey (frameworkRemoved s f).allocated f = false := by
    rw [frameworkRemoved]
    exact containsKey_eraseKey_self s.allocated f
  have hfil : filtersOf (frameworkRemoved s f) f = [] := by
    rw [filtersOf, frameworkRemoved]
    rw [filter_ne_filter_eq_nil, List.map_nil]
  refine ⟨rfl, rfl, hfil, hcf, ?_, ?_, ?_⟩
  · by_cases hemp : (Resources.allocatable o).isEmpty = true
    · simp [resourcesRecovered, hemp]
    · rw [Bool.not_eq_true] at hemp
      by_cases hca : containsKey s.allocatable a = true
      · simp [resourcesRecovered, frameworkRemoved, hemp, containsKey_eraseKey_self, hca]
      · rw [Bool.not_eq_true] at hca
        simp [resourcesRecovered, frameworkRemoved, hemp, containsKey_eraseKey_self, hca]
  · intro hca n
    by_cases hemp : (Resources.allocatable o).isEmpty = true
    · have honil : Resources.allocatable o = [] := by rwa [List.isEmpty_iff] at hemp
      simp [resourcesRecovered, frameworkRemoved, hemp,
        scalarTotal_eq_zero_of_valid_allocatable_nil o hv honil n]
    · rw [Bool.not_eq_true] at hemp
      simp only [resourcesRecovered, frameworkRemoved, hemp, containsKey_eraseKey_self,
        Bool.false_eq_true, if_false, hca, if_true]
      exact lookupRes_mapAddAt_self s.allocatable a o n
  · intro hca
    by_cases hemp : (Resources.allocatable o).isEmpty = true
    · simp [resourcesRecovered, frameworkRemoved, hemp]
    · rw [Bool.not_eq_true] at hemp
      simp [resourcesRecovered, frameworkRemoved, hemp, containsKey_eraseKey_self, hca]

/-- Witness for C6: after removing framework `F` that holds all of
agent `a1`'s 8 cpus, recovery of those 8 cpus raises the agent's free
cpus from 0 to 8 even though `F` is no longer registered. -/
theorem c6_removed_framework_then_recovered_witness :
    scalarTotal
        (lookupRes
          (resourcesRecovered
            (frameworkRemoved
              ⟨["F"], [("a1", ⟨"h", [("cpus", Value.scalar 8)]⟩)],
               [("cpus", Value.scalar 8)], [("F", [("cpus", Value.scalar 8)])],
               [("a1", [])], [], none⟩ "F")
            "F" "a1" [("cpus", Value.scalar 8)]).allocatable "a1") "cpus" =
      scalarTotal
        (lookupRes
          (AllocState.allocatable
            ⟨["F"], [("a1", ⟨"h", [("cpus", Value.scalar 8)]⟩)],
             [("cpus", Value.scalar 8)], [("F", [("cpus", Value.scalar 8)])],
             [("a1", [])], [], none⟩) "a1") "cpus" +
        scalarTotal [("cpus", Value.scalar 8)] "cpus" :=
  (c6_removed_framework_then_recovered
      ⟨["F"], [("a1", ⟨"h", [("cpus", Value.scalar 8)]⟩)],
       [("cpus", Value.scalar 8)], [("F", [("cpus", Value.scalar 8)])],
       [("a1", [])], [], none⟩
      "F" "a1" [("cpus", Value.scalar 8)] (by decide)).2.2.2.2.2.1 (by decide) "cpus"

/-- Counterexample to claim C8 as stated: after `frameworkRemoved(F)`,
the inbound event `resourcesUnused(F, a1, {cpus:1})` is *not* dropped
harmlessly — it hits the fatal `CHECK(allocated.contains(frameworkId))`
of the source (modelled as `none`), contrary to "without a fatal
assertion firing". -/
theorem c8_counterexample_unused_is_fatal :
    resourcesUnused
        (frameworkRemoved
          ⟨["F"], [("a1", ⟨"h", [("cpus", Value.scalar 8)]⟩)],
           [("cpus", Value.scalar 8)], [("F", [("cpus", Value.scalar 1)])],
           [("a1", [("cpus", Value.scalar 7)])], [], none⟩ "F")
        "F" "a1" [("cpus", Value.scalar 1)] none 0 = none := by
  decide

/-- Claim C8 amended: after `frameworkRemoved(f)` the framework is
gone from the allocated map; `frameworkDeactivated(f)` and
`resourcesRecovered(f, ·, ·)` are then safe no-ops on the ledger, but
`resourcesUnused(f, a, O)` with an O that has a non-empty allocatable
projection fires the fatal `CHECK(allocated.contains(frameworkId))`
(modelled as `none`). -/
theorem c8_events_after_removal (s : AllocState) (f a : String)
    (o : Resources) (fspec : Option FiltersMsg) (now : ℚ) :
    (containsKey s.allocated f = false → Resources.allocatable o ≠ [] →
      resourcesUnused s f a o fspec now = none) ∧
    containsKey (frameworkRemoved s f).allocated f = false ∧
    ((frameworkDeactivated s f).allocated = s.allocated ∧
      (frameworkDeactivated s f).allocatable = s.allocatable ∧
      (frameworkDeactivated s f).slaves = s.slaves) ∧
    (containsKey s.allocated f = false →
      (resourcesRecovered s f a o).allocated = s.allocated) := by
  refine ⟨?_, ?_, ⟨rfl, rfl, rfl⟩, ?_⟩
  · intro hcf hne
    have hempF : (Resources.allocatable o).isEmpty = false := by
      rw [← Bool.not_eq_true, List.isEmpty_iff]
      exact hne
    simp [resourcesUnused, hempF, hcf]
  · rw [frameworkRemoved]
    exact containsKey_eraseKey_self s.allocated f
  · intro hcf
    by_cases hemp : (Resources.allocatable o).isEmpty = true
    · simp [resourcesRecovered, hemp]
    · rw [Bool.not_eq_true] at hemp
      by_cases hca : containsKey s.allocatable a = true
      · simp [resourcesRecovered, hemp, hcf, hca]
      · rw [Bool.not_eq_true] at hca
        simp [resourcesRecovered, hemp, hcf, hca]

/-- Witness for C8 (amended): the fatal branch and the safe branches
at a concrete post-removal state. -/
theorem c8_events_after_removal_witness :
    resourcesUnused
        ⟨[], [("a1", ⟨"h", [("cpus", Value.scalar 8)]⟩)],
         [("cpus", Value.scalar 8)], [],
         [("a1", [("cpus", Value.scalar 7)])], [], none⟩
        "F" "a1" [("cpus", Value.scalar 2)] (some ⟨3⟩) 1 = none :=
  (c8_events_after_removal
      ⟨[], [("a1", ⟨"h", [("cpus", Value.scalar 8)]⟩)],
       [("cpus", Value.scalar 8)], [],
       [("a1", [("cpus", Value.scalar 7)])], [], none⟩
      "F" "a1" [("cpus", Value.scalar 2)] (some ⟨3⟩) 1).1 (by decide) (by decide)

/-! ### Claim C5 -/

/-- Counterexample to claim C5 as stated: the source installs a filter
when the effective refuse duration is *non-zero* (`timeout != 0.0`),
not when it is strictly positive, and installs nothing at all when the
refused vector has an empty allocatable projection.  Concretely:
`refuse_seconds = -1` (not `> 0`) still installs a filter with expiry
`now + (-1)`, and a zero-cpus vector with `refuse_seconds = 6 > 0`
installs none and leaves the state untouched. -/
theorem c5_counterexample_refuse_condition :
    ((resourcesUnused
        ⟨["F"], [("a1", ⟨"h", [("cpus", Value.scalar 8)]⟩)],
         [("cpus", Value.scalar 8)], [("F", [("cpus", Value.scalar 1)])],
         [("a1", [("cpus", Value.scalar 7)])], [], none⟩
        "F" "a1" [("cpus", Value.scalar 1)] (some ⟨-1⟩) 0).map
        (fun st => st.filters)) =
      some [("F", ⟨"a1", [("cpus", Value.scalar 1)], -1⟩)] ∧
    ¬((-1 : ℚ) > 0) ∧
    resourcesUnused
        ⟨["F"], [("a1", ⟨"h", [("cpus", Value.scalar 8)]⟩)],
         [("cpus", Value.scalar 8)], [("F", [("cpus", Value.scalar 1)])],
         [("a1", [("cpus", Value.scalar 7)])], [], none⟩
        "F" "a1" [("cpus", Value.scalar 0)] (some ⟨6⟩) 0 =
      some ⟨["F"], [("a1", ⟨"h", [("cpus", Value.scalar 8)]⟩)],
        [("cpus", Value.scalar 8)], [("F", [("cpus", Value.scalar 1)])],
        [("a1", [("cpus", Value.scalar 7)])], [], none⟩ ∧
    ((6 : ℚ) > 0) := by
  refine ⟨?_, by norm_num, by decide, by norm_num⟩
  norm_num [resourcesUnused, containsKey, effectiveRefuse, DEFAULT_REFUSE_SECONDS,
    Resources.allocatable, mapSubAt, mapAddAt, Resources.sub, Resources.add,
    Resources.subEntry, Resources.addEntry, Value.subV, Value.addV, Value.sameKind]

/-- Claim C5 amended: when the refused vector has a non-empty
allocatable projection (and framework and agent pass the fatal
`CHECK`s), `resourcesUnused(f, a, O, filterSpec)` decrements
`allocated[f]` by `O`, increments `free(a)` by `O`, and installs the
filter `(a, O, now + refuse)` if and only if the effective refuse
duration — `filterSpec.refuse_seconds`, or the default 5.0 when absent
— is non-zero (the source tests `timeout != 0.0`, not `> 0`). -/
theorem c5_resourcesUnused_effects (s : AllocState) (f a : String) (o : Resources)
    (fspec : Option FiltersMsg) (now : ℚ)
    (hne : Resources.allocatable o ≠ [])
    (hf : containsKey s.allocated f = true)
    (ha : containsKey s.allocatable a = true) :
    resourcesUnused s f a o fspec now =
      some { s with
        allocated := mapSubAt s.allocated f o,
        allocatable := mapAddAt s.allocatable a o,
        filters :=
          if effectiveRefuse fspec ≠ 0 then
            s.filters ++ [(f, ⟨a, o, now + effectiveRefuse fspec⟩)]
          else s.filters } ∧
    (∀ n, scalarTotal (lookupRes (mapSubAt s.allocated f o) f) n =
      scalarTotal (lookupRes s.allocated f) n - scalarTotal o n) ∧
    (∀ n, scalarTotal (lookupRes (mapAddAt s.allocatable a o) a) n =
      scalarTotal (lookupRes s.allocatable a) n + scalarTotal o n) := by
  have hempF : (Resources.allocatable o).isEmpty = false := by
    rw [← Bool.not_eq_true, List.isEmpty_iff]
    exact hne
  refine ⟨?_, fun n => lookupRes_mapSubAt_self s.allocated f o n,
    fun n => lookupRes_mapAddAt_self s.allocatable a o n⟩
  by_cases ht : effectiveRefuse fspec = 0
  · simp [resourcesUnused, hempF, hf, ha, ht]
  · simp [resourcesUnused, hempF, hf, ha, ht]

/-- Witness for C5 (amended): a concrete refusal with
`refuse_seconds = 10` at time 3. -/
theorem c5_resourcesUnused_effects_witness :
    resourcesUnused
        ⟨["F"], [("a1", ⟨"h", [("cpus", Value.scalar 8)]⟩)],
         [("cpus", Value.scalar 8)], [("F", [("cpus", Value.scalar 3)])],
         [("a1", [("cpus", Value.scalar 5)])], [], none⟩
        "F" "a1" [("cpus", Value.scalar 2)] (some ⟨10⟩) 3 =
      some { (⟨["F"], [("a1", ⟨"h", [("cpus", Value.scalar 8)]⟩)],
              [("cpus", Value.scalar 8)], [("F", [("cpus", Value.scalar 3)])],
              [("a1", [("cpus", Value.scalar 5)])], [], none⟩ : AllocState) with
        allocated := mapSubAt [("F", [("cpus", Value.scalar 3)])] "F"
          [("cpus", Value.scalar 2)],
        allocatable := mapAddAt [("a1", [("cpus", Value.scalar 5)])] "a1"
          [("cpus", Value.scalar 2)],
        filters :=
          if effectiveRefuse (some ⟨10⟩) ≠ 0 then
            [] ++ [("F", ⟨"a1", [("cpus", Value.scalar 2)], 3 + effectiveRefuse (some ⟨10⟩)⟩)]
          else [] } :=
  (c5_resourcesUnused_effects
      ⟨["F"], [("a1", ⟨"h", [("cpus", Value.scalar 8)]⟩)],
       [("cpus", Value.scalar 8)], [("F", [("cpus", Value.scalar 3)])],
       [("a1", [("cpus", Value.scalar 5)])], [], none⟩
      "F" "a1" [("cpus", Value.scalar 2)] (some ⟨10⟩) 3
      (by decide) (by decide) (by decide)).1

/-! ### Claim C2: the fairness comparator -/

theorem getScalar_cons_scalar (n : String) (t : ℚ) (rest : Resources) :
    Resources.getScalar ((n, Value.scalar t) :: rest) n = t := by
  simp [Resources.getScalar, List.find?_cons, Value.sameKind]

theorem getScalar_cons_ne (m : String) (v : Value) (rest : Resources) (n : String)
    (h : m ≠ n) :
    Resources.getScalar ((m, v) :: rest) n = Resources.getScalar rest n := by
  rw [Resources.getScalar, Resources.getScalar, List.find?_cons]
  have hp : (decide ((m, v).1 = n ∧ ((m, v).2.sameKind (Value.scalar 0)) = true)) = false := by
    simp [h]
  rw [hp]

theorem getScalar_cons_nonscalar (m : String) (v : Value) (rest : Resources) (n : String)
    (h : v.sameKind (Value.scalar 0) = false) :
    Resources.getScalar ((m, v) :: rest) n = Resources.getScalar rest n := by
  rw [Resources.getScalar, Resources.getScalar, List.find?_cons]
  have hp : (decide ((m, v).1 = n ∧ ((m, v).2.sameKind (Value.scalar 0)) = true)) = false := by
    simp [h]
  rw [hp]

theorem getScalar_nil (n : String) : Resources.getScalar [] n = 0 := rfl

/-- The comparator's simultaneous fold computes the two shares
independently. -/
theorem dsShares_fold (a1 a2 : Resources) (l : Resources) (p : ℚ × ℚ) :
    l.foldl (dsStep a1 a2) p =
      (l.foldl (fun s e =>
        match e.2 with
        | .scalar t => if 0 < t then max s (Resources.getScalar a1 e.1 / t) else s
        | _ => s) p.1,
       l.foldl (fun s e =>
        match e.2 with
        | .scalar t => if 0 < t then max s (Resources.getScalar a2 e.1 / t) else s
        | _ => s) p.2) := by
  induction l generalizing p with
  | nil => rfl
  | cons e rest ih =>
      rcases e with ⟨n, v⟩
      cases v with
      | scalar t =>
          by_cases h : 0 < t
          · simp only [List.foldl_cons, dsStep, h, if_pos]
            exact ih _
          · simp only [List.foldl_cons, dsStep, h, if_neg, ite_false]
            exact ih p
      | ranges r =>
          simp only [List.foldl_cons, dsStep]
          exact ih p
      | items r =>
          simp only [List.foldl_cons, dsStep]
          exact ih p

theorem dsShares_eq (total a1 a2 : Resources) :
    dsShares total a1 a2 = (shareOf total a1, shareOf total a2) :=
  dsShares_fold a1 a2 total (0, 0)

/-- The per-resource contributions the comparator maximises over. -/
def contribs (total alloc : Resources) : List ℚ :=
  total.filterMap (fun e =>
    match e.2 with
    | .scalar t => if 0 < t then some (Resources.getScalar alloc e.1 / t) else none
    | _ => none)

theorem foldl_step_eq_foldl_max (total alloc : Resources) (b : ℚ) :
    total.foldl (fun s e =>
      match e.2 with
      | .scalar t => if 0 < t then max s (Resources.getScalar alloc e.1 / t) else s
      | _ => s) b = (contribs total alloc).foldl max b := by
  induction total generalizing b with
  | nil => rfl
  | cons e rest ih =>
      rcases e with ⟨n, v⟩
      cases v with
      | scalar t =>
          by_cases h : 0 < t
          · simp only [List.foldl_cons, h, if_pos, contribs, List.filterMap_cons]
            exact ih _
          · simp only [List.foldl_cons, h, if_neg, ite_false, contribs, List.filterMap_cons]
            exact ih b
      | ranges r =>
          simp only [List.foldl_cons, contribs, List.filterMap_cons]
          exact ih b
      | items r =>
          simp only [List.foldl_cons, contribs, List.filterMap_cons]
          exact ih b

theorem shareOf_eq_contribs (total alloc : Resources) :
    shareOf total alloc = (contribs total alloc).foldl max 0 :=
  foldl_step_eq_foldl_max total alloc 0

/-- Under distinct scalar names, the claim's per-name maximum ranges
over exactly the comparator's per-entry contributions. -/
theorem specShare_eq_shareOf (total : Resources) (allocM : ResMap) (f : String)
    (hnd : (scalarNames total).Nodup) :
    specShare total allocM f = shareOf total (lookupRes allocM f) := by
  rw [shareOf_eq_contribs, specShare]
  congr 1
  induction total with
  | nil => rfl
  | cons e rest ih =>
      rcases e with ⟨n, v⟩
      cases v with
      | scalar t =>
          have hsn : scalarNames ((n, Value.scalar t) :: rest) = n :: scalarNames rest := by
            simp [scalarNames, List.filterMap_cons]
          rw [hsn] at hnd
          rw [List.nodup_cons] at hnd
          have htail :
              (scalarNames rest).filterMap (fun m =>
                if 0 < Resources.getScalar ((n, Value.scalar t) :: rest) m then
                  some (Resources.getScalar (lookupRes allocM f) m /
                    Resources.getScalar ((n, Value.scalar t) :: rest) m)
                else none) =
              (scalarNames rest).filterMap (fun m =>
                if 0 < Resources.getScalar rest m then
                  some (Resources.getScalar (lookupRes allocM f) m /
                    Resources.getScalar rest m)
                else none) := by
            apply List.filterMap_congr
            intro m hm
            have hmn : n ≠ m := fun hc => hnd.1 (hc ▸ hm)
            rw [getScalar_cons_ne n (Value.scalar t) rest m hmn]
          have hcontr : contribs ((n, Value.scalar t) :: rest) (lookupRes allocM f) =
              (if 0 < t then
                (Resources.getScalar (lookupRes allocM f) n / t)
                  :: contribs rest (lookupRes allocM f)
               else contribs rest (lookupRes allocM f)) := by
            by_cases hpos : 0 < t <;> simp [contribs, List.filterMap_cons, hpos]
          rw [hsn, List.filterMap_cons, hcontr]
          by_cases hpos : 0 < t <;>
            simp [getScalar_cons_scalar, hpos, htail, ih hnd.2]
      | ranges r =>
          have hsn : scalarNames ((n, Value.ranges r) :: rest) = scalarNames rest := by
            simp [scalarNames, List.filterMap_cons]
          rw [hsn] at hnd
          have htail :
              (scalarNames rest).filterMap (fun m =>
                if 0 < Resources.getScalar ((n, Value.ranges r) :: rest) m then
                  some (Resources.getScalar (lookupRes allocM f) m /
                    Resources.getScalar ((n, Value.ranges r) :: rest) m)
                else none) =
              (scalarNames rest).filterMap (fun m =>
                if 0 < Resources.getScalar rest m then
                  some (Resources.getScalar (lookupRes allocM f) m /
                    Resources.getScalar rest m)
                else none) := by
            apply List.filterMap_congr
            intro m _
            rw [getScalar_cons_nonscalar n (Value.ranges r) rest m rfl]
          have hcontr : contribs ((n, Value.ranges r) :: rest) (lookupRes allocM f) =
              contribs rest (lookupRes allocM f) := by
            simp [contribs, List.filterMap_cons]
          rw [hsn, hcontr, htail, ih hnd]
      | items r =>
          have hsn : scalarNames ((n, Value.items r) :: rest) = scalarNames rest := by
            simp [scalarNames, List.filterMap_cons]
          rw [hsn] at hnd
          have htail :
              (scalarNames rest).filterMap (fun m =>
                if 0 < Resources.getScalar ((n, Value.items r) :: rest) m then
                  some (Resources.getScalar (lookupRes allocM f) m /
                    Resources.getScalar ((n, Value.items r) :: rest) m)
                else none) =
              (scalarNames rest).filterMap (fun m =>
                if 0 < Resources.getScalar rest m then
                  some (Resources.getScalar (lookupRes allocM f) m /
                    Resources.getScalar rest m)
                else none) := by
            apply List.filterMap_congr
            intro m _
            rw [getScalar_cons_nonscalar n (Value.items r) rest m rfl]
          have hcontr : contribs ((n, Value.items r) :: rest) (lookupRes allocM f) =
              contribs rest (lookupRes allocM f) := by
            simp [contribs, List.filterMap_cons]
          rw [hsn, hcontr, htail, ih hnd]

/-- The comparator decides exactly the lexicographic strict order on
(share, framework id) — stated with the per-framework fold. -/
theorem dsComp_iff (total : Resources) (allocM : ResMap) (f1 f2 : String) :
    dsComp total allocM f1 f2 = true ↔
      (shareOf total (lookupRes allocM f1) < shareOf total (lookupRes allocM f2) ∨
        (shareOf total (lookupRes allocM f1) = shareOf total (lookupRes allocM f2) ∧
          f1 < f2)) := by
  rw [dsComp]
  rw [dsShares_eq]
  by_cases h : shareOf total (lookupRes allocM f1) = shareOf total (lookupRes allocM f2)
  · rw [if_pos h]
    simp [h, lt_irrefl]
  · rw [if_neg h]
    simp [h]

theorem foldl_max_zero (l : List ℚ) (h : ∀ x ∈ l, x = 0) : l.foldl max 0 = 0 := by
  induction l with
  | nil => rfl
  | cons x rest ih =>
      rw [List.foldl_cons]
      rw [h x (List.mem_cons_self x rest), max_self]
      exact ih (fun y hy => h y (List.mem_cons_of_mem x hy))

/-- A framework absent from the allocated map reads as the empty
vector, whose dominant share is zero. -/
theorem specShare_absent (total : Resources) (allocM : ResMap) (f : String)
    (h : containsKey allocM f = false) : specShare total allocM f = 0 := by
  have hlk : lookupRes allocM f = [] := by
    rw [lookupRes]
    have : allocM.find? (fun e => e.1 = f) = none := by
      rw [List.find?_eq_none]
      intro e he
      rw [containsKey] at h
      by_contra hc
      have : allocM.any (fun e => e.1 = f) = true := by
        rw [List.any_eq_true]
        exact ⟨e, he, hc⟩
      rw [h] at this
      exact Bool.false_ne_true this
    rw [this]
  rw [specShare, hlk]
  apply foldl_max_zero
  intro x hx
  rw [List.mem_filterMap] at hx
  obtain ⟨n, _, hn⟩ := hx
  by_cases hpos : 0 < Resources.getScalar total n
  · simp only [hpos, if_pos, Option.some_inj] at hn
    rw [← hn, getScalar_nil, zero_div]
  · simp [hpos] at hn

/-- Claim C2: the comparator orders two frameworks by ascending
dominant share — the maximum over scalar names with positive cluster
total of `allocated[f].scalar(r) / T.scalar(r)`, ignoring non-scalar
resources and zero totals, with an absent framework reading as share
zero — and breaks ties by lexicographically smaller framework id
(stated for cluster totals whose scalar names are distinct, as a
hash-map total guarantees). -/
theorem c2_comparator_orders_by_dominant_share (total : Resources) (allocM : ResMap)
    (f1 f2 : String) (hnd : (scalarNames total).Nodup) :
    (dsComp total allocM f1 f2 = true ↔
      (specShare total allocM f1 < specShare total allocM f2 ∨
        (specShare total allocM f1 = specShare total allocM f2 ∧ f1 < f2))) ∧
    (containsKey allocM f1 = false → specShare total allocM f1 = 0) := by
  refine ⟨?_, specShare_absent total allocM f1⟩
  rw [specShare_eq_shareOf total allocM f1 hnd, specShare_eq_shareOf total allocM f2 hnd]
  exact dsComp_iff total allocM f1 f2

/-- Witness for C2 at a concrete cluster: total has a ports range and
a zero disk total (both ignored); framework A is cpu-bound at 4/10,
B is mem-bound at 5/20, C is unknown. -/
theorem c2_comparator_orders_by_dominant_share_witness :
    (dsComp [("cpus", Value.scalar 10), ("mem", Value.scalar 20),
        ("ports", Value.ranges [(1, 100)]), ("disk", Value.scalar 0)]
      [("A", [("cpus", Value.scalar 4), ("mem", Value.scalar 2)]),
       ("B", [("cpus", Value.scalar 1), ("mem", Value.scalar 5)])] "C" "A" = true ↔
      (specShare [("cpus", Value.scalar 10), ("mem", Value.scalar 20),
          ("ports", Value.ranges [(1, 100)]), ("disk", Value.scalar 0)]
        [("A", [("cpus", Value.scalar 4), ("mem", Value.scalar 2)]),
         ("B", [("cpus", Value.scalar 1), ("mem", Value.scalar 5)])] "C" <
        specShare [("cpus", Value.scalar 10), ("mem", Value.scalar 20),
          ("ports", Value.ranges [(1, 100)]), ("disk", Value.scalar 0)]
        [("A", [("cpus", Value.scalar 4), ("mem", Value.scalar 2)]),
         ("B", [("cpus", Value.scalar 1), ("mem", Value.scalar 5)])] "A" ∨
        (specShare [("cpus", Value.scalar 10), ("mem", Value.scalar 20),
            ("ports", Value.ranges [(1, 100)]), ("disk", Value.scalar 0)]
          [("A", [("cpus", Value.scalar 4), ("mem", Value.scalar 2)]),
           ("B", [("cpus", Value.scalar 1), ("mem", Value.scalar 5)])] "C" =
          specShare [("cpus", Value.scalar 10), ("mem", Value.scalar 20),
            ("ports", Value.ranges [(1, 100)]), ("disk", Value.scalar 0)]
          [("A", [("cpus", Value.scalar 4), ("mem", Value.scalar 2)]),
           ("B", [("cpus", Value.scalar 1), ("mem", Value.scalar 5)])] "A" ∧
          ("C" : String) < "A"))) ∧
    (containsKey
        [("A", [("cpus", Value.scalar 4), ("mem", Value.scalar 2)]),
         ("B", [("cpus", Value.scalar 1), ("mem", Value.scalar 5)])] "C" = false →
      specShare [("cpus", Value.scalar 10), ("mem", Value.scalar 20),
          ("ports", Value.ranges [(1, 100)]), ("disk", Value.scalar 0)]
        [("A", [("cpus", Value.scalar 4), ("mem", Value.scalar 2)]),
         ("B", [("cpus", Value.scalar 1), ("mem", Value.scalar 5)])] "C" = 0) :=
  c2_comparator_orders_by_dominant_share
    [("cpus", Value.scalar 10), ("mem", Value.scalar 20),
     ("ports", Value.ranges [(1, 100)]), ("disk", Value.scalar 0)]
    [("A", [("cpus", Value.scalar 4), ("mem", Value.scalar 2)]),
     ("B", [("cpus", Value.scalar 1), ("mem", Value.scalar 5)])] "C" "A" (by decide)

/-! ### Claim C1: conservation -/

theorem allocatePass_of_avail_nil (s : AllocState) (ids : List String) (now : ℚ)
    (h : availableMap s ids = []) : allocatePass s ids now = (s, []) := by
  rw [allocatePass]
  by_cases h1 : s.frameworks.isEmpty = true
  · rw [if_pos h1]
  · rw [if_neg h1]
    simp only [h, List.isEmpty_nil, if_pos]

theorem grantOne_balance (f : String) (flt : List FilterRec) (now : ℚ)
    (acc : List (String × ResourceHints) × ResMap × ResMap) (e : String × Resources)
    (n : String) :
    sumScalar (grantOne f flt now acc e).2.1 n + sumScalar (grantOne f flt now acc e).2.2 n =
      sumScalar acc.2.1 n + sumScalar acc.2.2 n := by
  rw [grantOne]
  by_cases h : matchesAny flt e.1 e.2 now = true
  · rw [if_pos h]
  · rw [if_neg h]
    simp only
    rw [sumScalar_mapAddAt, sumScalar_mapSubAt]
    ring

theorem foldl_grantOne_balance (f : String) (flt : List FilterRec) (now : ℚ)
    (avail : ResMap) (acc : List (String × ResourceHints) × ResMap × ResMap) (n : String) :
    sumScalar (avail.foldl (grantOne f flt now) acc).2.1 n +
      sumScalar (avail.foldl (grantOne f flt now) acc).2.2 n =
      sumScalar acc.2.1 n + sumScalar acc.2.2 n := by
  induction avail generalizing acc with
  | nil => rfl
  | cons e rest ih =>
      rw [List.foldl_cons, ih (grantOne f flt now acc e), grantOne_balance]

theorem passStep_balance (s : AllocState) (now : ℚ) (st : PassSt) (f : String) (n : String) :
    sumScalar (passStep s now st f).allocated n +
      sumScalar (passStep s now st f).allocatable n =
      sumScalar st.allocated n + sumScalar st.allocatable n := by
  simp only [passStep]
  split
  · exact foldl_grantOne_balance f (filtersOf s f) now st.avail
      ([], st.allocated, st.allocatable) n
  · exact foldl_grantOne_balance f (filtersOf s f) now st.avail
      ([], st.allocated, st.allocatable) n

theorem passFold_balance (s : AllocState) (now : ℚ) (L : List String) (st : PassSt)
    (n : String) :
    sumScalar (L.foldl (passStep s now) st).allocated n +
      sumScalar (L.foldl (passStep s now) st).allocatable n =
      sumScalar st.allocated n + sumScalar st.allocatable n := by
  induction L generalizing st with
  | nil => rfl
  | cons f rest ih =>
      rw [List.foldl_cons, ih (passStep s now st f), passStep_balance]

theorem allocatePass_consFor (s : AllocState) (ids : List String) (now : ℚ) (n : String)
    (h : consFor s n) : consFor (allocatePass s ids now).1 n := by
  simp only [allocatePass]
  split
  · exact h
  · split
    · exact h
    · show sumScalar _ n + sumScalar _ n = advertisedSum _ n
      have hb := passFold_balance s now (sortedFrameworks s)
        ⟨availableMap s ids, s.allocated, s.allocatable, []⟩ n
      exact hb.trans h

theorem resourcesUnused_consFor (s : AllocState) (f a : String) (o : Resources)
    (fs : Option FiltersMsg) (now : ℚ) (s' : AllocState) (n : String)
    (hs : resourcesUnused s f a o fs now = some s') (h : consFor s n) : consFor s' n := by
  rw [resourcesUnused] at hs
  split at hs
  · cases hs
    exact h
  · split at hs
    · exact Option.noConfusion hs
    · split at hs
      · exact Option.noConfusion hs
      · split at hs
        · cases hs
          show sumScalar (mapSubAt s.allocated f o) n +
            sumScalar (mapAddAt s.allocatable a o) n = advertisedSum s n
          rw [sumScalar_mapSubAt, sumScalar_mapAddAt]
          have hh : sumScalar s.allocated n + sumScalar s.allocatable n =
            advertisedSum s n := h
          linarith
        · cases hs
          show sumScalar (mapSubAt s.allocated f o) n +
            sumScalar (mapAddAt s.allocatable a o) n = advertisedSum s n
          rw [sumScalar_mapSubAt, sumScalar_mapAddAt]
          have hh : sumScalar s.allocated n + sumScalar s.allocatable n =
            advertisedSum s n := h
          linarith

theorem resourcesRecovered_consFor (s : AllocState) (f a : String) (o : Resources)
    (n : String) (hf : containsKey s.allocated f = true)
    (ha : containsKey s.allocatable a = true) (h : consFor s n) :
    consFor (resourcesRecovered s f a o) n := by
  rw [resourcesRecovered]
  split
  · exact h
  · simp only [hf, if_true, ha, if_pos]
    show sumScalar (mapSubAt s.allocated f o) n +
      sumScalar (mapAddAt s.allocatable a o) n = advertisedSum s n
    rw [sumScalar_mapSubAt, sumScalar_mapAddAt]
    have hh : sumScalar s.allocated n + sumScalar s.allocatable n =
      advertisedSum s n := h
    linarith

/-! ### The allocation pass: membership lemmas -/

theorem passStep_avail_sublist (s : AllocState) (now : ℚ) (st : PassSt) (f : String) :
    (passStep s now st f).avail.Sublist st.avail := by
  simp only [passStep]
  split
  · exact List.Sublist.refl _
  · exact List.filter_sublist _

theorem passFold_avail_sublist (s : AllocState) (now : ℚ) (L : List String) (st : PassSt) :
    (L.foldl (passStep s now) st).avail.Sublist st.avail := by
  induction L generalizing st with
  | nil => exact List.Sublist.refl _
  | cons g rest ih =>
      rw [List.foldl_cons]
      exact (ih (passStep s now st g)).trans (passStep_avail_sublist s now st g)

/-- The inner loop collects exactly the unfiltered available agents,
in order, with empty minimum-resources hints. -/
theorem foldl_grantOne_offerable (f : String) (flt : List FilterRec) (now : ℚ)
    (avail : ResMap) (ob : List (String × ResourceHints)) (alc alb : ResMap) :
    (avail.foldl (grantOne f flt now) (ob, alc, alb)).1 =
      ob ++ (avail.filter (fun e => !matchesAny flt e.1 e.2 now)).map
        (fun e => (e.1, (⟨e.2, []⟩ : ResourceHints))) := by
  induction avail generalizing ob alc alb with
  | nil => simp
  | cons e rest ih =>
      rw [List.foldl_cons, List.filter_cons]
      by_cases h : matchesAny flt e.1 e.2 now = true
      · rw [grantOne, if_pos h]
        simp only [h, Bool.not_true, Bool.false_eq_true, if_neg, ite_false]
        exact ih ob alc alb
      · rw [grantOne, if_neg h]
        simp only
        rw [ih]
        have hb : (!matchesAny flt e.1 e.2 now) = true := by
          rw [Bool.not_eq_true']
          exact Bool.eq_false_iff.mpr h
        simp [hb]

/-- Every offer the pass fold emits beyond those it started with goes
to a framework of the visited list, is non-empty, and grants, with an
empty minimum hint, unfiltered entries of the starting available map. -/
theorem mem_passFold_offers (s : AllocState) (now : ℚ) (L : List String) (st : PassSt)
    (f : String) (m : List (String × ResourceHints))
    (h : (f, m) ∈ (L.foldl (passStep s now) st).offers) :
    (f, m) ∈ st.offers ∨
      (f ∈ L ∧ m ≠ [] ∧ ∀ x rh, (x, rh) ∈ m →
        rh.minResources = [] ∧
        matchesAny (filtersOf s f) x rh.expectedResources now = false ∧
        (x, rh.expectedResources) ∈ st.avail) := by
  induction L generalizing st with
  | nil => exact Or.inl h
  | cons g rest ih =>
      rw [List.foldl_cons] at h
      rcases ih (passStep s now st g) h with h1 | h2
      · revert h1
        simp only [passStep]
        split
        · exact fun h1 => Or.inl h1
        · intro h1
          rename_i hne
          rcases List.mem_append.mp h1 with hA | hB
          · exact Or.inl hA
          · have hfm := List.mem_singleton.mp hB
            have hf : f = g := congrArg Prod.fst hfm
            have hm : m = (st.avail.foldl (grantOne g (filtersOf s g) now)
                ([], st.allocated, st.allocatable)).1 := congrArg Prod.snd hfm
            subst hf
            refine Or.inr ⟨List.mem_cons_self _ _, ?_, ?_⟩
            · intro hmnil
              rw [hmnil] at hm
              exact hne (by rw [← hm]; rfl)
            · intro x rh hx
              rw [hm, foldl_grantOne_offerable, List.nil_append] at hx
              rcases List.mem_map.mp hx with ⟨e, he, hee⟩
              rcases List.mem_filter.mp he with ⟨hein, hcond⟩
              have hx1 : e.1 = x := congrArg Prod.fst hee
              have hx2 : (⟨e.2, []⟩ : ResourceHints) = rh := congrArg Prod.snd hee
              refine ⟨by rw [← hx2], ?_, ?_⟩
              · rw [← hx2, ← hx1]
                show matchesAny (filtersOf s f) e.1 e.2 now = false
                rw [Bool.not_eq_true'] at hcond
                exact hcond
              · rw [← hx2, ← hx1]
                show (e.1, e.2) ∈ st.avail
                simpa using hein
      · refine Or.inr ⟨List.mem_cons_of_mem g h2.1, h2.2.1, ?_⟩
        intro x rh hx
        rcases h2.2.2 x rh hx with ⟨ha, hb, hc⟩
        exact ⟨ha, hb, (passStep_avail_sublist s now st g).mem hc⟩

theorem mem_availableMap (s : AllocState) (ids : List String) (x : String) (r : Resources) :
    (x, r) ∈ availableMap s ids ↔
      ∃ res, (x, res) ∈ s.allocatable ∧ ids.contains x = true ∧
        isWhitelisted s x = true ∧ r = Resources.allocatable res ∧
        MIN_CPUS ≤ Resources.getScalar r "cpus" ∧
        MIN_MEM < Resources.getScalar r "mem" := by
  constructor
  · intro h
    rcases List.mem_filterMap.mp h with ⟨e, he, hg⟩
    by_cases h1 : (ids.contains e.1 && isWhitelisted s e.1) = true
    · rw [if_pos h1] at hg
      by_cases h2 : (decide (MIN_CPUS ≤ Resources.getScalar (Resources.allocatable e.2) "cpus") &&
          decide (MIN_MEM < Resources.getScalar (Resources.allocatable e.2) "mem")) = true
      · rw [if_pos h2] at hg
        have hx1 : e.1 = x := congrArg Prod.fst (Option.some_inj.mp hg)
        have hx2 : Resources.allocatable e.2 = r := congrArg Prod.snd (Option.some_inj.mp hg)
        rw [Bool.and_eq_true, decide_eq_true_iff, decide_eq_true_iff] at h2
        rw [Bool.and_eq_true] at h1
        refine ⟨e.2, ?_, ?_, ?_, hx2.symm, hx2 ▸ h2.1, hx2 ▸ h2.2⟩
        · rw [← hx1]
          simpa using he
        · rw [← hx1]
          exact h1.1
        · rw [← hx1]
          exact h1.2
      · rw [if_neg h2] at hg
        exact Option.noConfusion hg
    · rw [if_neg h1] at hg
      exact Option.noConfusion hg
  · rintro ⟨res, hin, hid, hwl, hr, hc, hm⟩
    apply List.mem_filterMap.mpr
    refine ⟨(x, res), hin, ?_⟩
    rw [if_pos (by simp only [Bool.and_eq_true]; exact ⟨hid, hwl⟩)]
    rw [if_pos (by simp only [Bool.and_eq_true, decide_eq_true_iff]; exact ⟨hr ▸ hc, hr ▸ hm⟩)]
    rw [hr]

theorem containsKey_iff_exists (m : ResMap) (k : String) :
    containsKey m k = true ↔ ∃ r, (k, r) ∈ m := by
  rw [containsKey, List.any_eq_true]
  constructor
  · rintro ⟨e, he, hp⟩
    refine ⟨e.2, ?_⟩
    have : e.1 = k := by simpa using hp
    rw [← this]
    simpa using he
  · rintro ⟨r, hr⟩
    exact ⟨(k, r), hr, by simp⟩

theorem lookupRes_eq_of_mem_nodup (m : ResMap)
    (hk : (m.map (fun e => e.1)).Nodup) (a : String) (res : Resources)
    (h : (a, res) ∈ m) : lookupRes m a = res := by
  induction m with
  | nil => exact absurd h (List.not_mem_nil _)
  | cons e rest ih =>
      rw [List.map_cons, List.nodup_cons] at hk
      rcases List.mem_cons.mp h with h1 | h2
      · rw [← h1, lookupRes_cons, if_pos rfl]
      · have hne : e.1 ≠ a := by
          intro hc
          exact hk.1 (hc ▸ (List.mem_map.mpr ⟨(a, res), h2, rfl⟩))
        rw [lookupRes_cons, if_neg hne]
        exact ih hk.2 h2

/-! ### Claim C3 -/

/-- Claim C3: no filtered offer.  Every offer `(f, agent → O)` emitted
by an allocation pass satisfies: no active filter of framework `f`
matches `(agent, O)` at the time of the pass — where a filter with
target `a'`, refused vector `R` and expiry `e` matches iff
`agent = a'`, `O ≤ R` and `now < e` (second conjunct makes that
matching definition explicit). -/
theorem c3_no_filtered_offer (s : AllocState) (ids : List String) (now : ℚ)
    (f x : String) (m : List (String × ResourceHints)) (rh : ResourceHints)
    (h : (f, m) ∈ (allocatePass s ids now).2) (hx : (x, rh) ∈ m) :
    matchesAny (filtersOf s f) x rh.expectedResources now = false ∧
      ∀ fr : FilterRec, (filterMatches fr x rh.expectedResources now = true ↔
        (x = fr.slaveId ∧ Resources.le rh.expectedResources fr.resources = true ∧
          now < fr.expiry)) := by
  refine ⟨?_, ?_⟩
  · revert h
    simp only [allocatePass]
    split
    · intro h
      exact absurd h (List.not_mem_nil _)
    · split
      · intro h
        exact absurd h (List.not_mem_nil _)
      · intro h
        rcases mem_passFold_offers s now (sortedFrameworks s)
            ⟨availableMap s ids, s.allocated, s.allocatable, []⟩ f m h with h1 | h2
        · exact absurd h1 (List.not_mem_nil _)
        · exact (h2.2.2 x rh hx).2.1
  · intro fr
    rw [filterMatches]
    simp [Bool.and_eq_true, decide_eq_true_iff, and_assoc]

/-- Witness for C3: a pass over one agent with one framework holding a
live filter on that agent emits no offer at all; with the filter
expired the offer appears and the theorem applies to it. -/
theorem c3_no_filtered_offer_witness :
    matchesAny
        (filtersOf
          (⟨["A"], [("a1", ⟨"h", [("cpus", Value.scalar 4), ("mem", Value.scalar 100)]⟩)],
            [("cpus", Value.scalar 4), ("mem", Value.scalar 100)], [("A", [])],
            [("a1", [("cpus", Value.scalar 4), ("mem", Value.scalar 100)])],
            [("A", ⟨"a1", [("cpus", Value.scalar 4), ("mem", Value.scalar 100)], 10⟩)],
            none⟩ : AllocState) "A")
        "a1"
        (ResourceHints.expectedResources
          ⟨[("cpus", Value.scalar 4), ("mem", Value.scalar 100)], []⟩) 15 = false :=
  (c3_no_filtered_offer
    (⟨["A"], [("a1", ⟨"h", [("cpus", Value.scalar 4), ("mem", Value.scalar 100)]⟩)],
      [("cpus", Value.scalar 4), ("mem", Value.scalar 100)], [("A", [])],
      [("a1", [("cpus", Value.scalar 4), ("mem", Value.scalar 100)])],
      [("A", ⟨"a1", [("cpus", Value.scalar 4), ("mem", Value.scalar 100)], 10⟩)],
      none⟩ : AllocState) ["a1"] 15 "A" "a1"
    [("a1", ⟨[("cpus", Value.scalar 4), ("mem", Value.scalar 100)], []⟩)]
    ⟨[("cpus", Value.scalar 4), ("mem", Value.scalar 100)], []⟩
    (by
      have hcm : (decide ("cpus" = "mem")) = false := by decide
      have hmc : (decide ("mem" = "cpus")) = false := by decide
      norm_num [allocatePass, availableMap, isWhitelisted, Resources.allocatable,
        Resources.getScalar, MIN_CPUS, MIN_MEM, List.filterMap_cons, List.find?_cons,
        List.filter_cons, Value.sameKind, hcm, hmc, sortedFrameworks,
        List.insertionSort, List.orderedInsert, passStep, grantOne, matchesAny,
        filterMatches, filtersOf, Resources.le, Value.leV, List.foldl_cons,
        List.foldl_nil, mapAddAt, mapSubAt, Resources.add, Resources.sub,
        Resources.addEntry, Resources.subEntry, Value.addV, Value.subV])
    (by simp)).1

/-! ### Claim C4 -/

/-- Counterexample to claim C4 as stated: the source's min-viable gate
is `cpus.value() >= MIN_CPUS && mem.value() > MIN_MEM` — the memory
test is *strict*.  An agent whose allocatable free memory is exactly
`MIN_MEM` (32) with ample cpus is eligible under the claim's "at least
min_mem" reading, yet the source keeps it out of `available` and emits
no offer for it. -/
theorem c4_counterexample_mem_boundary :
    claimC4eligible
        (⟨["F"], [("a1", ⟨"h", [("cpus", Value.scalar 8), ("mem", Value.scalar 32)]⟩)],
          [("cpus", Value.scalar 8), ("mem", Value.scalar 32)], [("F", [])],
          [("a1", [("cpus", Value.scalar 1), ("mem", Value.scalar 32)])], [], none⟩
          : AllocState) ["a1"] "a1" = true ∧
    availableMap
        (⟨["F"], [("a1", ⟨"h", [("cpus", Value.scalar 8), ("mem", Value.scalar 32)]⟩)],
          [("cpus", Value.scalar 8), ("mem", Value.scalar 32)], [("F", [])],
          [("a1", [("cpus", Value.scalar 1), ("mem", Value.scalar 32)])], [], none⟩
          : AllocState) ["a1"] = [] ∧
    (allocatePass
        (⟨["F"], [("a1", ⟨"h", [("cpus", Value.scalar 8), ("mem", Value.scalar 32)]⟩)],
          [("cpus", Value.scalar 8), ("mem", Value.scalar 32)], [("F", [])],
          [("a1", [("cpus", Value.scalar 1), ("mem", Value.scalar 32)])], [], none⟩
          : AllocState) ["a1"] 0).2 = [] := by
  have hcm : (decide ("cpus" = "mem")) = false := by decide
  have hmc : (decide ("mem" = "cpus")) = false := by decide
  have havail : availableMap
      (⟨["F"], [("a1", ⟨"h", [("cpus", Value.scalar 8), ("mem", Value.scalar 32)]⟩)],
        [("cpus", Value.scalar 8), ("mem", Value.scalar 32)], [("F", [])],
        [("a1", [("cpus", Value.scalar 1), ("mem", Value.scalar 32)])], [], none⟩
        : AllocState) ["a1"] = [] := by
    norm_num [availableMap, isWhitelisted, Resources.allocatable, Resources.getScalar,
      MIN_CPUS, MIN_MEM, List.filterMap_cons, List.find?_cons, List.filter_cons,
      Value.sameKind, hcm, hmc]
  refine ⟨?_, havail, ?_⟩
  · norm_num [claimC4eligible, isWhitelisted, containsKey, lookupRes,
      Resources.allocatable, Resources.getScalar, MIN_CPUS, MIN_MEM,
      List.find?_cons, List.filter_cons, Value.sameKind, hcm, hmc]
  · rw [allocatePass_of_avail_nil _ _ _ havail]

/-- Claim C4 amended: a considered agent is placed in the available map
iff the whitelist admits it, its allocatable free cpus are at least
`MIN_CPUS`, and its allocatable free mem is *strictly more than*
`MIN_MEM` (the source tests `mem > MIN_MEM`, not `≥`); consequently an
offered agent is always whitelisted, considered, and above both
thresholds — in particular no non-whitelisted agent and no agent with
free cpus below `MIN_CPUS` is ever offered, regardless of its free
memory. -/
theorem c4_available_gate (s : AllocState) (ids : List String) (a : String)
    (hk : (s.allocatable.map (fun e => e.1)).Nodup) :
    (containsKey (availableMap s ids) a = true ↔
      (ids.contains a = true ∧ containsKey s.allocatable a = true ∧
        isWhitelisted s a = true ∧
        MIN_CPUS ≤ Resources.getScalar
          (Resources.allocatable (lookupRes s.allocatable a)) "cpus" ∧
        MIN_MEM < Resources.getScalar
          (Resources.allocatable (lookupRes s.allocatable a)) "mem")) ∧
    (∀ now f m rh, (f, m) ∈ (allocatePass s ids now).2 → (a, rh) ∈ m →
      ids.contains a = true ∧ isWhitelisted s a = true ∧
      MIN_CPUS ≤ Resources.getScalar rh.expectedResources "cpus" ∧
      MIN_MEM < Resources.getScalar rh.expectedResources "mem") := by
  have hmem : ∀ rh : ResourceHints, (a, rh.expectedResources) ∈ availableMap s ids →
      ids.contains a = true ∧ isWhitelisted s a = true ∧
      MIN_CPUS ≤ Resources.getScalar rh.expectedResources "cpus" ∧
      MIN_MEM < Resources.getScalar rh.expectedResources "mem" := by
    intro rh hr
    rcases (mem_availableMap s ids a rh.expectedResources).mp hr with
      ⟨res, _, hid, hwl, _, hc, hm⟩
    exact ⟨hid, hwl, hc, hm⟩
  constructor
  · constructor
    · intro h
      rcases (containsKey_iff_exists _ _).mp h with ⟨r, hr⟩
      rcases (mem_availableMap s ids a r).mp hr with ⟨res, hin, hid, hwl, hre, hc, hm⟩
      have hlk : lookupRes s.allocatable a = res :=
        lookupRes_eq_of_mem_nodup _ hk _ _ hin
      refine ⟨hid, (containsKey_iff_exists _ _).mpr ⟨res, hin⟩, hwl, ?_, ?_⟩
      · rw [hlk, ← hre]
        exact hc
      · rw [hlk, ← hre]
        exact hm
    · rintro ⟨hid, hck, hwl, hc, hm⟩
      rcases (containsKey_iff_exists _ _).mp hck with ⟨res, hin⟩
      have hlk : lookupRes s.allocatable a = res :=
        lookupRes_eq_of_mem_nodup _ hk _ _ hin
      apply (containsKey_iff_exists _ _).mpr
      refine ⟨Resources.allocatable res,
        (mem_availableMap s ids a _).mpr ⟨res, hin, hid, hwl, rfl, ?_, ?_⟩⟩
      · rw [← hlk]
        exact hc
      · rw [← hlk]
        exact hm
  · intro now f m rh hfm hx
    revert hfm
    simp only [allocatePass]
    split
    · intro hfm
      exact absurd hfm (List.not_mem_nil _)
    · split
      · intro hfm
        exact absurd hfm (List.not_mem_nil _)
      · intro hfm
        rcases mem_passFold_offers s now (sortedFrameworks s)
            ⟨availableMap s ids, s.allocated, s.allocatable, []⟩ f m hfm with h1 | h2
        · exact absurd h1 (List.not_mem_nil _)
        · exact hmem rh (h2.2.2 a rh hx).2.2

/-- Witness for C4 (amended): with free `{cpus:1, mem:33}` the agent is
in the available map (33 > 32). -/
theorem c4_available_gate_witness :
    containsKey
      (availableMap
        (⟨["F"], [("a1", ⟨"h", [("cpus", Value.scalar 8), ("mem", Value.scalar 33)]⟩)],
          [("cpus", Value.scalar 8), ("mem", Value.scalar 33)], [("F", [])],
          [("a1", [("cpus", Value.scalar 1), ("mem", Value.scalar 33)])], [], none⟩
          : AllocState) ["a1"]) "a1" = true :=
  ((c4_available_gate
      (⟨["F"], [("a1", ⟨"h", [("cpus", Value.scalar 8), ("mem", Value.scalar 33)]⟩)],
        [("cpus", Value.scalar 8), ("mem", Value.scalar 33)], [("F", [])],
        [("a1", [("cpus", Value.scalar 1), ("mem", Value.scalar 33)])], [], none⟩
        : AllocState) ["a1"] "a1" (by decide)).1).mpr
    (by
      have hcm : (decide ("cpus" = "mem")) = false := by decide
      have hmc : (decide ("mem" = "cpus")) = false := by decide
      norm_num [isWhitelisted, containsKey, lookupRes, Resources.allocatable,
        Resources.getScalar, MIN_CPUS, MIN_MEM, List.find?_cons, List.filter_cons,
        Value.sameKind, hcm, hmc])

/-- Counterexample to claim C1 as stated: conservation does not hold at
*every* event boundary.  Starting from the empty allocator, adding
framework `F`, then agent `a1` with 8 advertised cpus of which `F`
uses 3, conservation holds (3 allocated + 5 free = 8 advertised); the
inbound event `frameworkRemoved(F)` then erases `allocated[F]` without
crediting any agent's free capacity, leaving 0 + 5 ≠ 8. -/
theorem c1_counterexample_frameworkRemoved :
    frameworkAdded initState "F" [] 0 =
      some (⟨["F"], [], [], [("F", [])], [], [], none⟩, []) ∧
    slaveAdded (⟨["F"], [], [], [("F", [])], [], [], none⟩ : AllocState)
        "a1" ⟨"h1", [("cpus", Value.scalar 8)]⟩ [("F", [("cpus", Value.scalar 3)])] 0 =
      some (⟨["F"], [("a1", ⟨"h1", [("cpus", Value.scalar 8)]⟩)],
        [("cpus", Value.scalar 8)], [("F", [("cpus", Value.scalar 3)])],
        [("a1", [("cpus", Value.scalar 5)])], [], none⟩, []) ∧
    consFor (⟨["F"], [("a1", ⟨"h1", [("cpus", Value.scalar 8)]⟩)],
        [("cpus", Value.scalar 8)], [("F", [("cpus", Value.scalar 3)])],
        [("a1", [("cpus", Value.scalar 5)])], [], none⟩ : AllocState) "cpus" ∧
    ¬ consFor (frameworkRemoved
        (⟨["F"], [("a1", ⟨"h1", [("cpus", Value.scalar 8)]⟩)],
          [("cpus", Value.scalar 8)], [("F", [("cpus", Value.scalar 3)])],
          [("a1", [("cpus", Value.scalar 5)])], [], none⟩ : AllocState) "F") "cpus" := by
  have havail : availableMap (⟨["F"], [("a1", ⟨"h1", [("cpus", Value.scalar 8)]⟩)],
      [("cpus", Value.scalar 8)], [("F", [("cpus", Value.scalar 3)])],
      [("a1", [("cpus", Value.scalar 5)])], [], none⟩ : AllocState) ["a1"] = [] := by
    have hcm : (decide ("cpus" = "mem")) = false := by decide
    norm_num [availableMap, isWhitelisted, Resources.allocatable, Resources.getScalar,
      MIN_CPUS, MIN_MEM, List.filterMap_cons, List.find?_cons, List.filter_cons,
      Value.sameKind, hcm]
  refine ⟨by decide, ?_, ?_, ?_⟩
  · have hstep : slaveAdded (⟨["F"], [], [], [("F", [])], [], [], none⟩ : AllocState)
        "a1" ⟨"h1", [("cpus", Value.scalar 8)]⟩ [("F", [("cpus", Value.scalar 3)])] 0 =
      some (allocatePass (⟨["F"], [("a1", ⟨"h1", [("cpus", Value.scalar 8)]⟩)],
        [("cpus", Value.scalar 8)], [("F", [("cpus", Value.scalar 3)])],
        [("a1", [("cpus", Value.scalar 5)])], [], none⟩ : AllocState) ["a1"] 0) := by
      rw [slaveAdded, if_neg (by decide)]
      norm_num [Resources.add, Resources.sub, Resources.addEntry, Resources.subEntry,
        mapAddAt, mapPut, Value.subV, Value.addV, Value.sameKind, List.foldl_cons,
        List.foldl_nil, List.contains]
    rw [hstep, allocatePass_of_avail_nil _ _ _ havail]
  · norm_num [consFor, sumScalar, scalarTotal, advertisedSum, List.filterMap_cons,
      List.filterMap_nil, List.sum_cons, List.sum_nil]
  · norm_num [consFor, sumScalar, scalarTotal, advertisedSum, frameworkRemoved, eraseKey,
      List.filter_cons, List.filterMap_cons, List.filterMap_nil, List.sum_cons,
      List.sum_nil]

/-- Claim C1 amended: the conservation balance (per scalar resource
`r`, allocated plus free equals advertised) is preserved by every
allocation pass, by every accepted `resourcesUnused`, by
`resourcesRecovered` when framework and agent are both still
registered, and by `frameworkDeactivated`; it is not an invariant of
*every* event boundary — `frameworkRemoved` erases `allocated[f]`
without crediting free (see the counterexample), and registration
events (`frameworkAdded` / `slaveAdded` with `used` entries) transfer
usage into or out of the balance by design. -/
theorem c1_conservation_preserved (s : AllocState) (ids : List String) (now : ℚ)
    (f a : String) (o : Resources) (fs : Option FiltersMsg) (s' : AllocState)
    (n : String) :
    (consFor s n → consFor (allocatePass s ids now).1 n) ∧
    (resourcesUnused s f a o fs now = some s' → consFor s n → consFor s' n) ∧
    (containsKey s.allocated f = true → containsKey s.allocatable a = true →
      consFor s n → consFor (resourcesRecovered s f a o) n) ∧
    (consFor s n → consFor (frameworkDeactivated s f) n) :=
  ⟨allocatePass_consFor s ids now n,
   fun hs h => resourcesUnused_consFor s f a o fs now s' n hs h,
   fun hf ha h => resourcesRecovered_consFor s f a o n hf ha h,
   fun h => h⟩

/-- Witness for C1 (amended): a full pass on a concrete balanced state
keeps the balance; the pass grants agent `a1`'s free 4 cpus and 100
mem to framework `F`. -/
theorem c1_conservation_preserved_witness :
    consFor (allocatePass
      (⟨["F"], [("a1", ⟨"h1", [("cpus", Value.scalar 8), ("mem", Value.scalar 100)]⟩)],
        [("cpus", Value.scalar 8), ("mem", Value.scalar 100)],
        [("F", [("cpus", Value.scalar 4)])],
        [("a1", [("cpus", Value.scalar 4), ("mem", Value.scalar 100)])], [], none⟩
        : AllocState) ["a1"] 0).1 "cpus" :=
  (c1_conservation_preserved
    ⟨["F"], [("a1", ⟨"h1", [("cpus", Value.scalar 8), ("mem", Value.scalar 100)]⟩)],
      [("cpus", Value.scalar 8), ("mem", Value.scalar 100)],
      [("F", [("cpus", Value.scalar 4)])],
      [("a1", [("cpus", Value.scalar 4), ("mem", Value.scalar 100)])], [], none⟩
    ["a1"] 0 "F" "a1" [] none initState "cpus").1
    (by
      have hmc : ¬ ("mem" : String) = "cpus" := by decide
      norm_num [consFor, sumScalar, scalarTotal, advertisedSum, List.filterMap_cons,
        List.filterMap_nil, List.sum_cons, List.sum_nil, hmc])

/-! ### Claim C7: machinery -/

theorem eq_of_mem_of_keys_nodup {β : Type} (m : List (String × β))
    (hk : (m.map (fun e => e.1)).Nodup) (e e' : String × β)
    (he : e ∈ m) (he' : e' ∈ m) (h : e.1 = e'.1) : e = e' := by
  induction m with
  | nil => exact absurd he (List.not_mem_nil _)
  | cons a t ih =>
      rw [List.map_cons, List.nodup_cons] at hk
      rcases List.mem_cons.mp he with h1 | h1 <;>
        rcases List.mem_cons.mp he' with h2 | h2
      · rw [h1, h2]
      · exfalso
        apply hk.1
        rw [← h1, h]
        exact List.mem_map.mpr ⟨e', h2, rfl⟩
      · exfalso
        apply hk.1
        rw [← h2, ← h]
        exact List.mem_map.mpr ⟨e, h1, rfl⟩
      · exact ih hk.2 h1 h2

theorem passStep_allocated_def (s : AllocState) (now : ℚ) (st : PassSt) (f : String) :
    (passStep s now st f).allocated =
      (st.avail.foldl (grantOne f (filtersOf s f) now)
        ([], st.allocated, st.allocatable)).2.1 := by
  simp only [passStep]
  split <;> rfl

theorem passStep_allocatable_def (s : AllocState) (now : ℚ) (st : PassSt) (f : String) :
    (passStep s now st f).allocatable =
      (st.avail.foldl (grantOne f (filtersOf s f) now)
        ([], st.allocated, st.allocatable)).2.2 := by
  simp only [passStep]
  split <;> rfl

theorem passStep_offers_eq (s : AllocState) (now : ℚ) (st : PassSt) (f : String) :
    (passStep s now st f).offers =
      st.offers ++
        (if (grantedOf s now f st.avail).isEmpty then []
         else [(f, (grantedOf s now f st.avail).map
            (fun e => (e.1, (⟨e.2, []⟩ : ResourceHints))))]) := by
  have hr : (st.avail.foldl (grantOne f (filtersOf s f) now)
      ([], st.allocated, st.allocatable)).1 =
      (grantedOf s now f st.avail).map (fun e => (e.1, (⟨e.2, []⟩ : ResourceHints))) := by
    rw [foldl_grantOne_offerable, List.nil_append, grantedOf]
  have hrE : (st.avail.foldl (grantOne f (filtersOf s f) now)
      ([], st.allocated, st.allocatable)).1.isEmpty =
      (grantedOf s now f st.avail).isEmpty := by
    rw [hr]
    cases grantedOf s now f st.avail <;> rfl
  simp only [passStep]
  split
  · rename_i hg
    rw [hrE] at hg
    rw [if_pos hg, List.append_nil]
  · rename_i hg
    rw [hrE] at hg
    rw [if_neg hg, hr]

theorem mem_grantedOf (s : AllocState) (now : ℚ) (f : String) (avail : ResMap)
    (e : String × Resources) :
    e ∈ grantedOf s now f avail ↔
      e ∈ avail ∧ matchesAny (filtersOf s f) e.1 e.2 now = false := by
  rw [grantedOf, List.mem_filter]
  constructor
  · rintro ⟨h1, h2⟩
    rw [Bool.not_eq_true'] at h2
    exact ⟨h1, h2⟩
  · rintro ⟨h1, h2⟩
    refine ⟨h1, ?_⟩
    rw [Bool.not_eq_true']
    exact h2

theorem passStep_avail_eq (s : AllocState) (now : ℚ) (st : PassSt) (f : String)
    (hk : (st.avail.map (fun e => e.1)).Nodup) :
    (passStep s now st f).avail =
      st.avail.filter (fun e => matchesAny (filtersOf s f) e.1 e.2 now) := by
  have hr : (st.avail.foldl (grantOne f (filtersOf s f) now)
      ([], st.allocated, st.allocatable)).1 =
      (grantedOf s now f st.avail).map (fun e => (e.1, (⟨e.2, []⟩ : ResourceHints))) := by
    rw [foldl_grantOne_offerable, List.nil_append, grantedOf]
  simp only [passStep]
  split
  · rename_i hg
    rw [hr] at hg
    have hgnil : grantedOf s now f st.avail = [] := by
      rcases hgg : grantedOf s now f st.avail with _ | ⟨e, t⟩
      · rfl
      · rw [hgg] at hg
        exact absurd hg (by simp)
    symm
    apply List.filter_eq_self.mpr
    intro e he
    by_contra hm
    have hmf : matchesAny (filtersOf s f) e.1 e.2 now = false := by
      rw [Bool.not_eq_true] at hm
      exact hm
    have : e ∈ grantedOf s now f st.avail := (mem_grantedOf s now f st.avail e).mpr ⟨he, hmf⟩
    rw [hgnil] at this
    exact absurd this (List.not_mem_nil _)
  · apply List.filter_congr
    intro e he
    rw [hr]
    by_cases hm : matchesAny (filtersOf s f) e.1 e.2 now = true
    · rw [hm]
      rw [Bool.not_eq_true']
      rw [List.any_eq_false]
      intro o ho
      rcases List.mem_map.mp ho with ⟨e', he', heo⟩
      rcases (mem_grantedOf s now f st.avail e').mp he' with ⟨he'in, he'm⟩
      simp only [← heo]
      intro hc
      have hc' : e'.1 = e.1 := by simpa using hc
      have : e' = e := eq_of_mem_of_keys_nodup st.avail hk e' e he'in he hc'
      rw [this] at he'm
      rw [he'm] at hm
      exact Bool.false_ne_true hm
    · have hmf : matchesAny (filtersOf s f) e.1 e.2 now = false := by
        rw [Bool.not_eq_true] at hm
        exact hm
      rw [hmf]
      rw [Bool.not_eq_false']
      rw [List.any_eq_true]
      refine ⟨(e.1, (⟨e.2, []⟩ : ResourceHints)), ?_, by simp⟩
      exact List.mem_map.mpr ⟨e, (mem_grantedOf s now f st.avail e).mpr ⟨he, hmf⟩, rfl⟩

theorem offersSpec_cons (s : AllocState) (now : ℚ) (g : String) (L : List String)
    (avail : ResMap) :
    offersSpec s now (g :: L) avail =
      if (grantedOf s now g avail).isEmpty then offersSpec s now L avail
      else (g, (grantedOf s now g avail).map
          (fun e => (e.1, (⟨e.2, []⟩ : ResourceHints)))) ::
        offersSpec s now L
          (avail.filter (fun e => matchesAny (filtersOf s g) e.1 e.2 now)) := rfl

theorem grantedOf_ne_nil_of_not_isEmpty (s : AllocState) (now : ℚ) (g : String)
    (avail : ResMap) (h : ¬ (grantedOf s now g avail).isEmpty = true) :
    grantedOf s now g avail ≠ [] := by
  intro hc
  rw [hc] at h
  exact h rfl

theorem passStep_avail_of_granted_isEmpty (s : AllocState) (now : ℚ) (st : PassSt)
    (g : String) (hk : (st.avail.map (fun e => e.1)).Nodup)
    (hge : (grantedOf s now g st.avail).isEmpty = true) :
    (passStep s now st g).avail = st.avail := by
  rw [passStep_avail_eq s now st g hk]
  apply List.filter_eq_self.mpr
  intro e he
  by_contra hm
  have hmf : matchesAny (filtersOf s g) e.1 e.2 now = false := by
    rw [Bool.not_eq_true] at hm
    exact hm
  have hmem : e ∈ grantedOf s now g st.avail :=
    (mem_grantedOf s now g st.avail e).mpr ⟨he, hmf⟩
  rw [List.isEmpty_iff.mp hge] at hmem
  exact absurd hmem (List.not_mem_nil _)

/-- The pass fold emits exactly the offers of the recursive
specification (given distinct available keys). -/
theorem passFold_offers_eq_spec (s : AllocState) (now : ℚ) (L : List String) (st : PassSt)
    (hk : (st.avail.map (fun e => e.1)).Nodup) :
    (L.foldl (passStep s now) st).offers = st.offers ++ offersSpec s now L st.avail := by
  induction L generalizing st with
  | nil => simp [offersSpec]
  | cons g rest ih =>
      rw [List.foldl_cons, offersSpec_cons]
      have hk' : ((passStep s now st g).avail.map (fun e => e.1)).Nodup := by
        rw [passStep_avail_eq s now st g hk]
        exact List.Nodup.sublist (List.Sublist.map _ (List.filter_sublist _)) hk
      rw [ih (passStep s now st g) hk']
      by_cases hge : (grantedOf s now g st.avail).isEmpty = true
      · rw [if_pos hge, passStep_offers_eq, if_pos hge, List.append_nil,
          passStep_avail_of_granted_isEmpty s now st g hk hge]
      · rw [if_neg hge, passStep_offers_eq, if_neg hge,
          passStep_avail_eq s now st g hk]
        rw [List.append_assoc, List.singleton_append]

/-- Every offer of the specification goes to a visited framework, is
non-empty, and grants unfiltered entries of the available map with
empty minimum hints. -/
theorem mem_offersSpec (s : AllocState) (now : ℚ) (L : List String) (avail : ResMap)
    (f : String) (m : List (String × ResourceHints))
    (h : (f, m) ∈ offersSpec s now L avail) :
    f ∈ L ∧ m ≠ [] ∧ ∀ x rh, (x, rh) ∈ m →
      rh.minResources = [] ∧
      matchesAny (filtersOf s f) x rh.expectedResources now = false ∧
      (x, rh.expectedResources) ∈ avail := by
  induction L generalizing avail with
  | nil => exact absurd h (List.not_mem_nil _)
  | cons g rest ih =>
      rw [offersSpec_cons] at h
      by_cases hge : (grantedOf s now g avail).isEmpty = true
      · rw [if_pos hge] at h
        rcases ih avail h with ⟨h1, h2, h3⟩
        exact ⟨List.mem_cons_of_mem _ h1, h2, h3⟩
      · rw [if_neg hge] at h
        rcases List.mem_cons.mp h with h1 | h1
        · have hf : f = g := congrArg Prod.fst h1
          have hm : m = (grantedOf s now g avail).map
              (fun e => (e.1, (⟨e.2, []⟩ : ResourceHints))) := congrArg Prod.snd h1
          subst hf
          refine ⟨List.mem_cons_self _ _, ?_, ?_⟩
          · intro hnil
            rw [hnil] at hm
            rcases hgg : grantedOf s now f avail with _ | ⟨e, t⟩
            · exact grantedOf_ne_nil_of_not_isEmpty s now f avail hge hgg
            · rw [hgg, List.map_cons] at hm
              exact List.noConfusion hm
          · intro x rh hx
            rw [hm] at hx
            rcases List.mem_map.mp hx with ⟨e, he, hee⟩
            rcases (mem_grantedOf s now f avail e).mp he with ⟨hein, hmf⟩
            have hx1 : e.1 = x := congrArg Prod.fst hee
            have hx2 : (⟨e.2, []⟩ : ResourceHints) = rh := congrArg Prod.snd hee
            refine ⟨by rw [← hx2], ?_, ?_⟩
            · rw [← hx2, ← hx1]
              exact hmf
            · rw [← hx2, ← hx1]
              exact hein
        · rcases ih _ h1 with ⟨h1', h2', h3'⟩
          refine ⟨List.mem_cons_of_mem _ h1', h2', fun x rh hx => ?_⟩
          rcases h3' x rh hx with ⟨ha, hb, hc⟩
          exact ⟨ha, hb, (List.filter_sublist _).mem hc⟩

theorem offersSpec_fst_sublist (s : AllocState) (now : ℚ) (L : List String)
    (avail : ResMap) :
    ((offersSpec s now L avail).map (fun o => o.1)).Sublist L := by
  induction L generalizing avail with
  | nil => simp [offersSpec]
  | cons g rest ih =>
      rw [offersSpec_cons]
      by_cases hge : (grantedOf s now g avail).isEmpty = true
      · rw [if_pos hge]
        exact (ih avail).trans (List.sublist_cons_self g rest)
      · rw [if_neg hge, List.map_cons]
        exact List.Sublist.cons₂ g (ih _)

theorem filter_keys_disjoint (avail : ResMap)
    (hk : (avail.map (fun e => e.1)).Nodup) (p : String × Resources → Bool) (x : String)
    (h1 : x ∈ (avail.filter (fun e => !p e)).map (fun e => e.1))
    (h2 : x ∈ (avail.filter p).map (fun e => e.1)) : False := by
  rcases List.mem_map.mp h1 with ⟨e, he, hex⟩
  rcases List.mem_map.mp h2 with ⟨e', he', hex'⟩
  rcases List.mem_filter.mp he with ⟨hein, hep⟩
  rcases List.mem_filter.mp he' with ⟨hein', hep'⟩
  have : e = e' := eq_of_mem_of_keys_nodup avail hk e e' hein hein' (by rw [hex, hex'])
  rw [this] at hep
  rw [hep'] at hep
  exact Bool.false_ne_true (by simpa using hep.symm)

theorem offersSpec_agents_subset (s : AllocState) (now : ℚ) (L : List String)
    (avail : ResMap) (x : String)
    (h : x ∈ (offersSpec s now L avail).flatMap (fun o => o.2.map (fun p => p.1))) :
    x ∈ avail.map (fun e => e.1) := by
  rcases List.mem_flatMap.mp h with ⟨o, ho, hxo⟩
  rcases List.mem_map.mp hxo with ⟨p, hp, hpx⟩
  rcases mem_offersSpec s now L avail o.1 o.2 (by simpa using ho) with
    ⟨_, _, h3⟩
  have hmem := (h3 p.1 p.2 (by simpa using hp)).2.2
  rw [← hpx]
  exact List.mem_map.mpr ⟨(p.1, p.2.expectedResources), hmem, rfl⟩

theorem offersSpec_agents_nodup (s : AllocState) (now : ℚ) (L : List String)
    (avail : ResMap) (hk : (avail.map (fun e => e.1)).Nodup) :
    ((offersSpec s now L avail).flatMap (fun o => o.2.map (fun p => p.1))).Nodup := by
  induction L generalizing avail with
  | nil => simp [offersSpec]
  | cons g rest ih =>
      rw [offersSpec_cons]
      by_cases hge : (grantedOf s now g avail).isEmpty = true
      · rw [if_pos hge]
        exact ih avail hk
      · rw [if_neg hge, List.flatMap_cons]
        have hmapmap : ((grantedOf s now g avail).map
            (fun e => (e.1, (⟨e.2, []⟩ : ResourceHints)))).map (fun p => p.1) =
            (grantedOf s now g avail).map (fun e => e.1) := by
          rw [List.map_map]
          rfl
        have hkrest : ((avail.filter (fun e =>
            matchesAny (filtersOf s g) e.1 e.2 now)).map (fun e => e.1)).Nodup :=
          List.Nodup.sublist (List.Sublist.map _ (List.filter_sublist _)) hk
        apply List.Nodup.append
        · rw [hmapmap]
          exact List.Nodup.sublist (List.Sublist.map _ (List.filter_sublist _)) hk
        · exact ih _ hkrest
        · intro x hx1 hx2
          rw [hmapmap] at hx1
          have hx2' : x ∈ (avail.filter (fun e =>
              matchesAny (filtersOf s g) e.1 e.2 now)).map (fun e => e.1) :=
            offersSpec_agents_subset s now rest _ x hx2
          exact filter_keys_disjoint avail hk
            (fun e => matchesAny (filtersOf s g) e.1 e.2 now) x hx1 hx2'

theorem offersSpec_first_unfiltered (s : AllocState) (now : ℚ) (f x : String)
    (rh : ResourceHints) :
    ∀ (L : List String) (avail : ResMap) (m : List (String × ResourceHints)),
      L.Nodup → (f, m) ∈ offersSpec s now L avail → (x, rh) ∈ m →
      ∀ g ∈ L.takeWhile (fun h' => h' ≠ f),
        matchesAny (filtersOf s g) x rh.expectedResources now = true := by
  intro L
  induction L with
  | nil =>
      intro avail m _ h _
      exact absurd h (List.not_mem_nil _)
  | cons g0 rest ih =>
      intro avail m hL h hx g hg
      rw [List.nodup_cons] at hL
      rw [offersSpec_cons] at h
      by_cases hge : (grantedOf s now g0 avail).isEmpty = true
      · rw [if_pos hge] at h
        by_cases hgf : g0 ≠ f
        · rw [List.takeWhile_cons, if_pos (by simpa using hgf)] at hg
          rcases List.mem_cons.mp hg with rfl | hg'
          · have hmem := ((mem_offersSpec s now rest avail f m h).2.2 x rh hx).2.2
            by_contra hm
            have hmf : matchesAny (filtersOf s g) x rh.expectedResources now = false := by
              rw [Bool.not_eq_true] at hm
              exact hm
            have : ((x : String), rh.expectedResources) ∈ grantedOf s now g avail :=
              (mem_grantedOf s now g avail _).mpr ⟨hmem, hmf⟩
            rw [List.isEmpty_iff.mp hge] at this
            exact absurd this (List.not_mem_nil _)
          · exact ih avail m hL.2 h hx g hg'
        · rw [List.takeWhile_cons, if_neg (by simpa using hgf)] at hg
          exact absurd hg (List.not_mem_nil _)
      · rw [if_neg hge] at h
        rcases List.mem_cons.mp h with h1 | h1
        · have hf : f = g0 := congrArg Prod.fst h1
          rw [List.takeWhile_cons, if_neg (by simp [hf])] at hg
          exact absurd hg (List.not_mem_nil _)
        · have hfrest : f ∈ rest := (mem_offersSpec s now rest _ f m h1).1
          have hgf : g0 ≠ f := fun hc => hL.1 (hc ▸ hfrest)
          rw [List.takeWhile_cons, if_pos (by simpa using hgf)] at hg
          rcases List.mem_cons.mp hg with rfl | hg'
          · have hmem := ((mem_offersSpec s now rest _ f m h1).2.2 x rh hx).2.2
            exact (List.mem_filter.mp hmem).2
          · exact ih _ m hL.2 h1 hx g hg'

theorem filter_fst_eq_of_nodup {β : Type} (l : List (String × β))
    (hk : (l.map (fun e => e.1)).Nodup) (x : String) (b : β) (hmem : (x, b) ∈ l) :
    l.filter (fun e => e.1 = x) = [(x, b)] := by
  induction l with
  | nil => exact absurd hmem (List.not_mem_nil _)
  | cons e rest ih =>
      rw [List.map_cons, List.nodup_cons] at hk
      rw [List.filter_cons]
      rcases List.mem_cons.mp hmem with h1 | h1
      · rw [← h1]
        rw [if_pos (by simp)]
        have hrest : rest.filter (fun e => e.1 = x) = [] := by
          apply List.filter_eq_nil_iff.mpr
          intro e' he'
          simp only [decide_eq_true_iff]
          intro hc
          have hx1 : x = e.1 := congrArg Prod.fst h1
          apply hk.1
          rw [← hx1]
          exact List.mem_map.mpr ⟨e', he', hc⟩
        rw [hrest]
      · have hex : ¬ e.1 = x := by
          intro hc
          apply hk.1
          rw [hc]
          exact List.mem_map.mpr ⟨(x, b), h1, rfl⟩
        rw [if_neg (by simpa using hex)]
        exact ih hk.2 h1

theorem foldl_grantOne_allocated_ne (f : String) (flt : List FilterRec) (now : ℚ)
    (avail : ResMap) (acc : List (String × ResourceHints) × ResMap × ResMap)
    (g : String) (hg : g ≠ f) :
    lookupRes (avail.foldl (grantOne f flt now) acc).2.1 g = lookupRes acc.2.1 g := by
  induction avail generalizing acc with
  | nil => rfl
  | cons e rest ih =>
      rw [List.foldl_cons, ih (grantOne f flt now acc e), grantOne]
      by_cases h : matchesAny flt e.1 e.2 now = true
      · rw [if_pos h]
      · rw [if_neg h]
        simp only
        exact lookupRes_mapAddAt_ne acc.2.1 f e.2 g hg

theorem foldl_grantOne_allocated_self (f : String) (flt : List FilterRec) (now : ℚ)
    (avail : ResMap) (acc : List (String × ResourceHints) × ResMap × ResMap) (n : String) :
    scalarTotal (lookupRes (avail.foldl (grantOne f flt now) acc).2.1 f) n =
      scalarTotal (lookupRes acc.2.1 f) n +
        ((avail.filter (fun e => !matchesAny flt e.1 e.2 now)).map
          (fun e => scalarTotal e.2 n)).sum := by
  induction avail generalizing acc with
  | nil => simp
  | cons e rest ih =>
      rw [List.foldl_cons, List.filter_cons]
      by_cases h : matchesAny flt e.1 e.2 now = true
      · rw [grantOne, if_pos h, ih acc]
        rw [if_neg (by simp [h])]
      · rw [grantOne, if_neg h]
        rw [ih]
        have hcond : (!matchesAny flt e.1 e.2 now) = true := by
          rw [Bool.not_eq_true']
          rw [Bool.not_eq_true] at h
          exact h
        rw [if_pos hcond, List.map_cons, List.sum_cons]
        simp only
        rw [lookupRes_mapAddAt_self]
        ring

theorem foldl_grantOne_allocatable_untouched (f : String) (flt : List FilterRec)
    (now : ℚ) (avail : ResMap) (acc : List (String × ResourceHints) × ResMap × ResMap)
    (x : String) (hma : ∀ r, (x, r) ∈ avail → matchesAny flt x r now = true) :
    lookupRes (avail.foldl (grantOne f flt now) acc).2.2 x = lookupRes acc.2.2 x := by
  induction avail generalizing acc with
  | nil => rfl
  | cons e rest ih =>
      rw [List.foldl_cons]
      rw [ih (grantOne f flt now acc e) (fun r hr => hma r (List.mem_cons_of_mem e hr))]
      rw [grantOne]
      by_cases h : matchesAny flt e.1 e.2 now = true
      · rw [if_pos h]
      · rw [if_neg h]
        simp only
        have hex : ¬ e.1 = x := by
          intro hc
          have hmem : ((x : String), e.2) ∈ e :: rest := by
            rw [← hc]
            simp
          have := hma e.2 hmem
          rw [← hc] at this
          rw [this] at h
          exact h rfl
        exact lookupRes_mapSubAt_ne acc.2.2 e.1 e.2 x (fun hc => hex hc.symm)

theorem foldl_grantOne_allocatable_granted (f : String) (flt : List FilterRec)
    (now : ℚ) (avail : ResMap) (acc : List (String × ResourceHints) × ResMap × ResMap)
    (x : String) (r : Resources) (n : String)
    (hk : (avail.map (fun e => e.1)).Nodup) (hmem : (x, r) ∈ avail)
    (hmf : matchesAny flt x r now = false) :
    scalarTotal (lookupRes (avail.foldl (grantOne f flt now) acc).2.2 x) n =
      scalarTotal (lookupRes acc.2.2 x) n - scalarTotal r n := by
  induction avail generalizing acc with
  | nil => exact absurd hmem (List.not_mem_nil _)
  | cons e rest ih =>
      rw [List.map_cons, List.nodup_cons] at hk
      rw [List.foldl_cons]
      rcases List.mem_cons.mp hmem with h1 | h1
      · have hx1 : x = e.1 := congrArg Prod.fst h1
        have hx2 : r = e.2 := congrArg Prod.snd h1
        have hnotin : ∀ r', ((x : String), r') ∈ rest → matchesAny flt x r' now = true := by
          intro r' hr'
          exfalso
          apply hk.1
          rw [← hx1]
          exact List.mem_map.mpr ⟨(x, r'), hr', rfl⟩
        rw [foldl_grantOne_allocatable_untouched f flt now rest _ x hnotin]
        rw [grantOne]
        have hm : matchesAny flt e.1 e.2 now = false := by
          rw [← hx1, ← hx2]
          exact hmf
        rw [if_neg (by rw [hm]; exact Bool.false_ne_true)]
        simp only
        rw [← hx1, ← hx2]
        exact lookupRes_mapSubAt_self acc.2.2 x r n
      · have hxe : ¬ e.1 = x := by
          intro hc
          apply hk.1
          rw [hc]
          exact List.mem_map.mpr ⟨(x, r), h1, rfl⟩
        have hstep : lookupRes (grantOne f flt now acc e).2.2 x = lookupRes acc.2.2 x := by
          rw [grantOne]
          by_cases h : matchesAny flt e.1 e.2 now = true
          · rw [if_pos h]
          · rw [if_neg h]
            simp only
            exact lookupRes_mapSubAt_ne acc.2.2 e.1 e.2 x (fun hc => hxe hc.symm)
        rw [ih _ hk.2 h1, hstep]

theorem passStep_allocated_self (s : AllocState) (now : ℚ) (st : PassSt) (f : String)
    (n : String) :
    scalarTotal (lookupRes (passStep s now st f).allocated f) n =
      scalarTotal (lookupRes st.allocated f) n +
        ((grantedOf s now f st.avail).map (fun e => scalarTotal e.2 n)).sum := by
  rw [passStep_allocated_def, foldl_grantOne_allocated_self, grantedOf]

theorem passStep_allocated_ne (s : AllocState) (now : ℚ) (st : PassSt) (f g : String)
    (hg : g ≠ f) :
    lookupRes (passStep s now st f).allocated g = lookupRes st.allocated g := by
  rw [passStep_allocated_def]
  exact foldl_grantOne_allocated_ne f (filtersOf s f) now st.avail _ g hg

theorem passStep_allocatable_granted (s : AllocState) (now : ℚ) (st : PassSt)
    (f x : String) (r : Resources) (n : String)
    (hk : (st.avail.map (fun e => e.1)).Nodup)
    (hmem : (x, r) ∈ grantedOf s now f st.avail) :
    scalarTotal (lookupRes (passStep s now st f).allocatable x) n =
      scalarTotal (lookupRes st.allocatable x) n - scalarTotal r n := by
  rcases (mem_grantedOf s now f st.avail (x, r)).mp hmem with ⟨hin, hmf⟩
  rw [passStep_allocatable_def]
  exact foldl_grantOne_allocatable_granted f (filtersOf s f) now st.avail _ x r n hk hin hmf

theorem passStep_allocatable_ungranted (s : AllocState) (now : ℚ) (st : PassSt)
    (f x : String) (hnot : ∀ r, ((x : String), r) ∉ grantedOf s now f st.avail) :
    lookupRes (passStep s now st f).allocatable x = lookupRes st.allocatable x := by
  rw [passStep_allocatable_def]
  apply foldl_grantOne_allocatable_untouched
  intro r hr
  by_contra hm
  have hmf : matchesAny (filtersOf s f) x r now = false := by
    rw [Bool.not_eq_true] at hm
    exact hm
  exact hnot r ((mem_grantedOf s now f st.avail (x, r)).mpr ⟨hr, hmf⟩)

theorem offeredToSum_nil (f n : String) : offeredToSum [] f n = 0 := rfl

theorem offeredToSum_cons (o : String × List (String × ResourceHints)) (offers : Offers)
    (f n : String) :
    offeredToSum (o :: offers) f n =
      (if o.1 = f then (o.2.map (fun p => scalarTotal p.2.expectedResources n)).sum
       else 0) + offeredToSum offers f n := by
  rw [offeredToSum, offeredToSum, List.filter_cons]
  by_cases h : o.1 = f
  · rw [if_pos (by simpa using h), if_pos h, List.map_cons, List.sum_cons]
  · rw [if_neg (by simpa using h), if_neg h, zero_add]

theorem offeredAtSum_nil (x n : String) : offeredAtSum [] x n = 0 := rfl

theorem offeredAtSum_cons (o : String × List (String × ResourceHints)) (offers : Offers)
    (x n : String) :
    offeredAtSum (o :: offers) x n =
      ((o.2.filter (fun p => p.1 = x)).map
        (fun p => scalarTotal p.2.expectedResources n)).sum + offeredAtSum offers x n := by
  rw [offeredAtSum, offeredAtSum, List.map_cons, List.sum_cons]

theorem offeredAtSum_eq_zero_of_not_agent (offers : Offers) (x n : String)
    (hx : x ∉ offers.flatMap (fun o => o.2.map (fun p => p.1))) :
    offeredAtSum offers x n = 0 := by
  induction offers with
  | nil => rfl
  | cons o rest ih =>
      rw [offeredAtSum_cons]
      rw [List.flatMap_cons, List.mem_append] at hx
      push_neg at hx
      have hfil : o.2.filter (fun p => p.1 = x) = [] := by
        apply List.filter_eq_nil_iff.mpr
        intro p hp
        simp only [decide_eq_true_iff]
        intro hc
        exact hx.1 (List.mem_map.mpr ⟨p, hp, hc⟩)
      rw [hfil, ih hx.2]
      simp

theorem offeredAtSum_spec_zero (s : AllocState) (now : ℚ) (L : List String)
    (avail : ResMap) (x n : String) (hx : x ∉ avail.map (fun e => e.1)) :
    offeredAtSum (offersSpec s now L avail) x n = 0 :=
  offeredAtSum_eq_zero_of_not_agent _ x n
    (fun hc => hx (offersSpec_agents_subset s now L avail x hc))

/-- Across the whole pass fold, each framework's allocated vector grows
by exactly the total it is offered. -/
theorem passFold_allocated_all (s : AllocState) (now : ℚ) :
    ∀ (L : List String) (st : PassSt), (st.avail.map (fun e => e.1)).Nodup →
      ∀ f n : String,
      scalarTotal (lookupRes (L.foldl (passStep s now) st).allocated f) n =
        scalarTotal (lookupRes st.allocated f) n +
          offeredToSum (offersSpec s now L st.avail) f n := by
  intro L
  induction L with
  | nil =>
      intro st _ f n
      simp [offersSpec, offeredToSum]
  | cons g rest ih =>
      intro st hk f n
      rw [List.foldl_cons, offersSpec_cons]
      have hk' : ((passStep s now st g).avail.map (fun e => e.1)).Nodup := by
        rw [passStep_avail_eq s now st g hk]
        exact List.Nodup.sublist (List.Sublist.map _ (List.filter_sublist _)) hk
      rw [ih (passStep s now st g) hk' f n]
      by_cases hge : (grantedOf s now g st.avail).isEmpty = true
      · rw [if_pos hge, passStep_avail_of_granted_isEmpty s now st g hk hge]
        by_cases hf : f = g
        · subst hf
          rw [passStep_allocated_self, List.isEmpty_iff.mp hge]
          simp
        · rw [passStep_allocated_ne s now st g f hf]
      · rw [if_neg hge, passStep_avail_eq s now st g hk, offeredToSum_cons]
        by_cases hf : f = g
        · subst hf
          rw [passStep_allocated_self]
          have hcomp : (((grantedOf s now f st.avail).map
              (fun e => (e.1, (⟨e.2, []⟩ : ResourceHints)))).map
                (fun p => scalarTotal p.2.expectedResources n)) =
              (grantedOf s now f st.avail).map (fun e => scalarTotal e.2 n) := by
            rw [List.map_map]
            rfl
          rw [if_pos rfl, hcomp]
          ring
        · rw [passStep_allocated_ne s now st g f hf,
            if_neg (fun hc => hf hc.symm)]
          ring

/-- Across the whole pass fold, each agent's free vector shrinks by
exactly what the pass offers from it. -/
theorem passFold_allocatable_all (s : AllocState) (now : ℚ) :
    ∀ (L : List String) (st : PassSt), (st.avail.map (fun e => e.1)).Nodup →
      ∀ x n : String,
      scalarTotal (lookupRes (L.foldl (passStep s now) st).allocatable x) n =
        scalarTotal (lookupRes st.allocatable x) n -
          offeredAtSum (offersSpec s now L st.avail) x n := by
  intro L
  induction L with
  | nil =>
      intro st _ x n
      simp [offersSpec, offeredAtSum]
  | cons g rest ih =>
      intro st hk x n
      rw [List.foldl_cons, offersSpec_cons]
      have hk' : ((passStep s now st g).avail.map (fun e => e.1)).Nodup := by
        rw [passStep_avail_eq s now st g hk]
        exact List.Nodup.sublist (List.Sublist.map _ (List.filter_sublist _)) hk
      rw [ih (passStep s now st g) hk' x n]
      by_cases hge : (grantedOf s now g st.avail).isEmpty = true
      · rw [if_pos hge, passStep_avail_of_granted_isEmpty s now st g hk hge]
        rw [passStep_allocatable_ungranted s now st g x (fun r hr => by
          rw [List.isEmpty_iff.mp hge] at hr
          exact absurd hr (List.not_mem_nil _))]
      · rw [if_neg hge, passStep_avail_eq s now st g hk, offeredAtSum_cons]
        by_cases hgx : ∃ r, ((x : String), r) ∈ grantedOf s now g st.avail
        · rcases hgx with ⟨r, hr⟩
          have hkg : ((grantedOf s now g st.avail).map (fun e => e.1)).Nodup :=
            List.Nodup.sublist (List.Sublist.map _ (List.filter_sublist _)) hk
          have hfg : (grantedOf s now g st.avail).filter (fun e => e.1 = x) = [(x, r)] :=
            filter_fst_eq_of_nodup _ hkg x r hr
          have hfil : ((grantedOf s now g st.avail).map
              (fun e => (e.1, (⟨e.2, []⟩ : ResourceHints)))).filter
                (fun p => p.1 = x) =
              ((grantedOf s now g st.avail).filter (fun e => e.1 = x)).map
                (fun e => (e.1, (⟨e.2, []⟩ : ResourceHints))) := by
            rw [List.filter_map]
            rfl
          rw [hfil, hfg]
          rw [passStep_allocatable_granted s now st g x r n hk hr]
          have hxkeys : x ∈ (grantedOf s now g st.avail).map (fun e => e.1) :=
            List.mem_map.mpr ⟨(x, r), hr, rfl⟩
          have hrest0 : offeredAtSum
              (offersSpec s now rest
                (st.avail.filter (fun e => matchesAny (filtersOf s g) e.1 e.2 now)))
              x n = 0 := by
            apply offeredAtSum_spec_zero
            intro hc
            exact filter_keys_disjoint st.avail hk
              (fun e => matchesAny (filtersOf s g) e.1 e.2 now) x hxkeys hc
          rw [hrest0]
          simp only [List.map_cons, List.map_nil, List.sum_cons, List.sum_nil]
          ring
        · push_neg at hgx
          rw [passStep_allocatable_ungranted s now st g x hgx]
          have hfil : ((grantedOf s now g st.avail).map
              (fun e => (e.1, (⟨e.2, []⟩ : ResourceHints)))).filter
                (fun p => p.1 = x) = [] := by
            apply List.filter_eq_nil_iff.mpr
            intro p hp
            simp only [decide_eq_true_iff]
            intro hc
            rcases List.mem_map.mp hp with ⟨e, he, hee⟩
            have he1 : e.1 = x := by
              rw [← hc, ← hee]
            apply hgx e.2
            rw [← he1]
            simpa using he
          rw [hfil]
          simp

theorem keys_sublist_of_filterMap (l : ResMap)
    (f : String × Resources → Option (String × Resources))
    (hf : ∀ e r, f e = some r → r.1 = e.1) :
    ((l.filterMap f).map (fun e => e.1)).Sublist (l.map (fun e => e.1)) := by
  induction l with
  | nil => simp
  | cons e rest ih =>
      rw [List.filterMap_cons, List.map_cons]
      cases hfe : f e with
      | none => exact ih.trans (List.sublist_cons_self _ _)
      | some r =>
          rw [List.map_cons, hf e r hfe]
          exact List.Sublist.cons₂ _ ih

theorem availableMap_keys_sublist (s : AllocState) (ids : List String) :
    ((availableMap s ids).map (fun e => e.1)).Sublist
      (s.allocatable.map (fun e => e.1)) := by
  apply keys_sublist_of_filterMap
  intro e r h
  by_cases h1 : (ids.contains e.1 && isWhitelisted s e.1) = true
  · rw [if_pos h1] at h
    by_cases h2 : (decide (MIN_CPUS ≤ Resources.getScalar (Resources.allocatable e.2) "cpus") &&
        decide (MIN_MEM < Resources.getScalar (Resources.allocatable e.2) "mem")) = true
    · rw [if_pos h2] at h
      rw [← Option.some_inj.mp h]
    · rw [if_neg h2] at h
      exact Option.noConfusion h
  · rw [if_neg h1] at h
    exact Option.noConfusion h

/-- The non-degenerate branch of `allocatePass`: with registered
frameworks and a non-empty available map, the result is the final fold
state's ledger and offers. -/
theorem allocatePass_main (s : AllocState) (ids : List String) (now : ℚ)
    (h1 : ¬ s.frameworks.isEmpty = true)
    (h2 : ¬ (availableMap s ids).isEmpty = true) :
    allocatePass s ids now =
      ({ s with
          allocated := ((sortedFrameworks s).foldl (passStep s now)
            ⟨availableMap s ids, s.allocated, s.allocatable, []⟩).allocated,
          allocatable := ((sortedFrameworks s).foldl (passStep s now)
            ⟨availableMap s ids, s.allocated, s.allocatable, []⟩).allocatable },
        ((sortedFrameworks s).foldl (passStep s now)
          ⟨availableMap s ids, s.allocated, s.allocatable, []⟩).offers) := by
  rw [allocatePass, if_neg h1]
  simp only [if_neg h2]

/-- Claim C7: an allocation pass is order-then-greedy.  With distinct
framework ids and distinct free-ledger keys: the offered frameworks
appear in comparator order (a sublist of the sorted framework
sequence); each framework receives at most one offer callback, and
every callback it receives is non-empty; each agent is offered at most
once per pass; every granted entry has empty minimum hints and carries
exactly `available[a]` — the whole allocatable free vector that agent
contributed to the available map — and goes to the first framework in
comparator order with no matching filter (every earlier framework has
a matching filter); and the ledger moves by exactly the offers:
`allocated[f]` grows by the total offered to `f` and `free(a)` shrinks
by the total offered from `a`, per scalar name. -/
theorem c7_order_then_greedy (s : AllocState) (ids : List String) (now : ℚ)
    (hnf : s.frameworks.Nodup)
    (hka : (s.allocatable.map (fun e => e.1)).Nodup) :
    ((allocatePass s ids now).2.map (fun o => o.1)).Sublist (sortedFrameworks s) ∧
    ((allocatePass s ids now).2.map (fun o => o.1)).Nodup ∧
    ((allocatePass s ids now).2.flatMap (fun o => o.2.map (fun p => p.1))).Nodup ∧
    (∀ f m, (f, m) ∈ (allocatePass s ids now).2 →
      m ≠ [] ∧ ∀ x rh, (x, rh) ∈ m →
        rh.minResources = [] ∧
        (x, rh.expectedResources) ∈ availableMap s ids ∧
        rh.expectedResources = lookupRes (availableMap s ids) x ∧
        matchesAny (filtersOf s f) x rh.expectedResources now = false ∧
        ∀ g ∈ (sortedFrameworks s).takeWhile (fun h' => h' ≠ f),
          matchesAny (filtersOf s g) x rh.expectedResources now = true) ∧
    (∀ f n, scalarTotal (lookupRes (allocatePass s ids now).1.allocated f) n =
      scalarTotal (lookupRes s.allocated f) n +
        offeredToSum (allocatePass s ids now).2 f n) ∧
    (∀ x n, scalarTotal (lookupRes (allocatePass s ids now).1.allocatable x) n =
      scalarTotal (lookupRes s.allocatable x) n -
        offeredAtSum (allocatePass s ids now).2 x n) := by
  have hkA : ((availableMap s ids).map (fun e => e.1)).Nodup :=
    List.Nodup.sublist (availableMap_keys_sublist s ids) hka
  have hsf : (sortedFrameworks s).Nodup := by
    rw [sortedFrameworks]
    exact ((List.perm_insertionSort (dsLe s.resources s.allocated)
      s.frameworks).nodup_iff).mpr hnf
  by_cases h1 : s.frameworks.isEmpty = true
  · have hps : allocatePass s ids now = (s, []) := by
      rw [allocatePass, if_pos h1]
    rw [hps]
    refine ⟨by simp, by simp, by simp, by simp, ?_, ?_⟩
    · intro f n
      simp [offeredToSum]
    · intro x n
      simp [offeredAtSum]
  · by_cases h2 : (availableMap s ids).isEmpty = true
    · have hps : allocatePass s ids now = (s, []) := by
        rw [allocatePass, if_neg h1]
        simp only [if_pos h2]
      rw [hps]
      refine ⟨by simp, by simp, by simp, by simp, ?_, ?_⟩
      · intro f n
        simp [offeredToSum]
      · intro x n
        simp [offeredAtSum]
    · rw [allocatePass_main s ids now h1 h2]
      have hoff : ((sortedFrameworks s).foldl (passStep s now)
          ⟨availableMap s ids, s.allocated, s.allocatable, []⟩).offers =
          offersSpec s now (sortedFrameworks s) (availableMap s ids) := by
        rw [passFold_offers_eq_spec s now _ _ hkA]
        simp
      rw [hoff]
      refine ⟨?_, ?_, ?_, ?_, ?_, ?_⟩
      · exact offersSpec_fst_sublist s now _ _
      · exact List.Nodup.sublist (offersSpec_fst_sublist s now _ _) hsf
      · exact offersSpec_agents_nodup s now _ _ hkA
      · intro f m hm
        rcases mem_offersSpec s now _ _ f m hm with ⟨_, hmne, h3⟩
        refine ⟨hmne, ?_⟩
        intro x rh hx
        rcases h3 x rh hx with ⟨hmin, hunf, hmemA⟩
        refine ⟨hmin, hmemA,
          (lookupRes_eq_of_mem_nodup _ hkA _ _ hmemA).symm, hunf, ?_⟩
        intro g hg
        exact offersSpec_first_unfiltered s now f x rh (sortedFrameworks s) _ m
          hsf hm hx g hg
      · intro f n
        have hled := passFold_allocated_all s now (sortedFrameworks s)
          ⟨availableMap s ids, s.allocated, s.allocatable, []⟩ hkA f n
        simpa using hled
      · intro x n
        have hled := passFold_allocatable_all s now (sortedFrameworks s)
          ⟨availableMap s ids, s.allocated, s.allocatable, []⟩ hkA x n
        simpa using hled

/-- Witness for C7: one framework, one eligible agent; the pass credits
`allocated["F"]` with exactly the cpus it offers. -/
theorem c7_order_then_greedy_witness :
    ((⟨["F"], [("a1", ⟨"h", [("cpus", Value.scalar 8), ("mem", Value.scalar 33)]⟩)],
        [("cpus", Value.scalar 8), ("mem", Value.scalar 33)], [("F", [])],
        [("a1", [("cpus", Value.scalar 1), ("mem", Value.scalar 33)])], [], none⟩
        : AllocState).frameworks.Nodup ∧
      (((⟨["F"], [("a1", ⟨"h", [("cpus", Value.scalar 8), ("mem", Value.scalar 33)]⟩)],
        [("cpus", Value.scalar 8), ("mem", Value.scalar 33)], [("F", [])],
        [("a1", [("cpus", Value.scalar 1), ("mem", Value.scalar 33)])], [], none⟩
        : AllocState).allocatable.map (fun e => e.1)).Nodup)) ∧
    scalarTotal
        (lookupRes
          (allocatePass
            (⟨["F"], [("a1", ⟨"h", [("cpus", Value.scalar 8), ("mem", Value.scalar 33)]⟩)],
              [("cpus", Value.scalar 8), ("mem", Value.scalar 33)], [("F", [])],
              [("a1", [("cpus", Value.scalar 1), ("mem", Value.scalar 33)])], [], none⟩
              : AllocState) ["a1"] 0).1.allocated "F") "cpus" =
      scalarTotal
        (lookupRes
          (⟨["F"], [("a1", ⟨"h", [("cpus", Value.scalar 8), ("mem", Value.scalar 33)]⟩)],
            [("cpus", Value.scalar 8), ("mem", Value.scalar 33)], [("F", [])],
            [("a1", [("cpus", Value.scalar 1), ("mem", Value.scalar 33)])], [], none⟩
            : AllocState).allocated "F") "cpus" +
        offeredToSum
          (allocatePass
            (⟨["F"], [("a1", ⟨"h", [("cpus", Value.scalar 8), ("mem", Value.scalar 33)]⟩)],
              [("cpus", Value.scalar 8), ("mem", Value.scalar 33)], [("F", [])],
              [("a1", [("cpus", Value.scalar 1), ("mem", Value.scalar 33)])], [], none⟩
              : AllocState) ["a1"] 0).2 "F" "cpus" :=
  ⟨⟨by decide, by decide⟩,
    (c7_order_then_greedy
      (⟨["F"], [("a1", ⟨"h", [("cpus", Value.scalar 8), ("mem", Value.scalar 33)]⟩)],
        [("cpus", Value.scalar 8), ("mem", Value.scalar 33)], [("F", [])],
        [("a1", [("cpus", Value.scalar 1), ("mem", Value.scalar 33)])], [], none⟩
        : AllocState) ["a1"] 0 (by decide) (by decide)).2.2.2.2.1 "F" "cpus"⟩

end MesosDSA
